import Mathlib

/-!
Verification development for the python-proofmarshal repository.

The Python sources are shallowly embedded: bytes become `List Nat` (each entry
intended < 256), Python ints become `Nat`/`Int`, and fallible code returns
`Except PyErr`.  The concrete structure families modelled are the ones the
repository itself instantiates in its tests: `IntMBTree` (keys serialized with
`Digest`, i.e. 32-byte strings, values with `UInt64`, `key2pfx =
Bits.from_bytes`) and `IntMMR` (values serialized with `UInt64`).
-/

set_option maxRecDepth 10000

/-- Exceptions raised by the embedded Python code.  `nameError` models a
`NameError` raised when Python evaluates an identifier that is not bound in the
module (as happens for `DeserializationError` inside `proof.py`, which never
imports it, and for `DataTruncatedError` inside `serialize.py`). -/
inductive PyErr where
  | typeError
  | valueError
  | indexError
  | keyError
  | assertionError
  | notImplementedError
  | attributeError
  | serTypeError
  | serValueError
  | nameError
deriving DecidableEq

/-- Immutable array of bits, from `bits.py`: a packed byte buffer (`buf`,
most-significant bit first within each byte) together with an explicit bit
length.  Unused trailing bits of the buffer are insignificant. -/
structure Bits where
  buf : List Nat
  length : Nat
deriving DecidableEq

/-- The empty `Bits()` singleton. -/
def Bits.empty : Bits := ⟨[], 0⟩

/-- Well-formedness of the byte-level representation (automatic in Python,
where buffer entries are bytes and the constructors enforce
`length <= 8 * len(buf)`). -/
def Bits.wfB (b : Bits) : Bool :=
  b.buf.all (fun x => x < 256) && b.length ≤ 8 * b.buf.length

/-- `Bits.from_bytes(buf, length)` from `bits.py` (checks elided failure cases
are enforced separately): internally the provided bytes are reused; a zero
length drops the buffer. -/
def Bits.from_bytes (buf : List Nat) (length : Nat) : Bits :=
  ⟨if length = 0 then [] else buf, length⟩

/-- Fallible `Bits.from_bytes`, with the `ValueError` check
`len(buf) * 8 < length` from the source (the `bytes`/`int` type checks are
subsumed by the embedding types). -/
def Bits.from_bytesChecked (buf : List Nat) (length : Nat) :
    Except PyErr Bits :=
  if buf.length * 8 < length then .error .valueError
  else .ok (Bits.from_bytes buf length)

/-- The part of the buffer made of full-width bytes
(`Bits.__full_width_prefix`). -/
def Bits.fullWidthPfx (b : Bits) : List Nat :=
  b.buf.take (b.length / 8)

/-- The non-full-width tail byte with unused bits masked to zero
(`Bits.__tail_bits`). -/
def Bits.tailBits (b : Bits) : Nat :=
  if b.length % 8 ≠ 0 then
    (b.buf.getD (b.length / 8) 0) &&& (0xFF <<< (8 - b.length % 8))
  else
    0

/-- Equality of `Bits` (`Bits.__eq__`): same length, same full-width bytes,
same masked tail. -/
def Bits.eqb (a b : Bits) : Bool :=
  if a.length ≠ b.length then false
  else if a.fullWidthPfx ≠ b.fullWidthPfx then false
  else a.tailBits == b.tailBits

/-- The bit at (in-range) index `i`, as extracted by `Bits.__getitem__` and
`Bits.__iter__`: `(buf[i // 8] >> (7 - i % 8)) & 1`. -/
def Bits.getBit (b : Bits) (i : Nat) : Nat :=
  ((b.buf.getD (i / 8) 0) >>> (7 - i % 8)) &&& 1

/-- `Bits.__getitem__` with an `int` index: negative indices count from the
end, out-of-range indices raise `IndexError`. -/
def Bits.getItem (b : Bits) (idx : Int) : Except PyErr Nat :=
  let idx := if idx < 0 then (b.length : Int) + idx else idx
  if 0 ≤ idx ∧ idx < (b.length : Int) then .ok (b.getBit idx.toNat)
  else .error .indexError

/-- The sequence of bits denoted by a `Bits` value (its `__iter__` view),
as booleans. -/
def Bits.bitsList (b : Bits) : List Bool :=
  (List.range b.length).map (fun i => b.getBit i == 1)

/-- Slice `b[0:stop]` with unit step, from `Bits.__getitem__`'s slice branch:
reuses the buffer (`stop = 0` returns the empty singleton, `stop = length`
returns `b` itself). -/
def Bits.prefixSlice (b : Bits) (stop : Nat) : Bits :=
  if stop = 0 then Bits.empty
  else if stop = b.length then b
  else ⟨b.buf, stop⟩

/-- `Bits.startswith(prefix)` from `bits.py` (the `TypeError` branch for a
foreign class is subsumed by the embedding's types). -/
def Bits.startswith (b : Bits) (p : Bits) : Bool :=
  if p.length > b.length then false
  else if p.length = b.length then Bits.eqb p b
  else Bits.eqb (b.prefixSlice p.length) p

/-- Scan for the first full-width byte position (below `n`) where the two
buffers differ; models the `for i in range(lhs.__length // 8)` loop of
`Bits.common_prefix`. -/
def Bits.firstDiffByte (xs ys : List Nat) (i n : Nat) : Option Nat :=
  if h : i < n then
    if xs.getD i 0 ≠ ys.getD i 0 then some i
    else Bits.firstDiffByte xs ys (i + 1) n
  else none
termination_by n - i

/-- The bit-refinement loop of `Bits.common_prefix`: shift the XOR of the
first differing bytes left until a difference reaches the top bit or the
length of the shorter operand is exhausted. -/
def Bits.bitScan (lhsLen : Nat) (diff cpl : Nat) : Nat :=
  if h : cpl < lhsLen ∧ diff &&& 0x80 = 0 then
    Bits.bitScan lhsLen ((diff <<< 1) &&& 0xFF) (cpl + 1)
  else cpl
termination_by lhsLen - cpl

/-- Core of `Bits.common_prefix(rhs)` from `bits.py` once the operands are
ordered so that `lhs` is the shorter one: scan whole bytes, then refine
bit-by-bit inside the first differing byte; return `lhs` itself when the whole
of `lhs` is a common prefix, else a new `Bits` sharing `lhs`'s buffer. -/
def Bits.commonCore (lhs rhs : Bits) : Bits :=
  let cpl0 :=
    match Bits.firstDiffByte lhs.buf rhs.buf 0 (lhs.length / 8) with
    | some i => i * 8
    | none => (lhs.length / 8) * 8
  let cpl :=
    if cpl0 < lhs.length then
      Bits.bitScan lhs.length
        ((lhs.buf.getD (cpl0 / 8) 0) ^^^ (rhs.buf.getD (cpl0 / 8) 0)) cpl0
    else cpl0
  if cpl = lhs.length then lhs
  else Bits.from_bytes lhs.buf cpl

/-- `Bits.common_prefix(rhs)` from `bits.py`: arrange so the shorter operand
is the "left-hand-side", then run the scan. -/
def Bits.common_pfx (a b : Bits) : Bits :=
  if a.length ≤ b.length then Bits.commonCore a b else Bits.commonCore b a

/-! ### Bit-level semantics of the byte-packed `Bits` operations -/

theorem shiftAnd_eq_testBit (x k : Nat) :
    (x >>> k) &&& 1 = (x.testBit k).toNat := by
  rw [Nat.and_one_is_mod, Nat.shiftRight_eq_div_pow, Nat.testBit_to_div_mod]
  rcases Nat.mod_two_eq_zero_or_one (x / 2 ^ k) with h | h <;> simp [h]

theorem toNat_inj_bool {x y : Bool} (h : x.toNat = y.toNat) : x = y := by
  cases x <;> cases y <;> simp_all

theorem Bits.getBit_eq_testBit (b : Bits) (i : Nat) :
    b.getBit i = ((b.buf.getD (i / 8) 0).testBit (7 - i % 8)).toNat :=
  shiftAnd_eq_testBit _ _

theorem Bits.getBit_le_one (b : Bits) (i : Nat) : b.getBit i ≤ 1 :=
  Nat.and_le_right

theorem Bits.byteD_lt (b : Bits) (hb : b.wfB = true) (j : Nat) :
    b.buf.getD j 0 < 256 := by
  rcases Nat.lt_or_ge j b.buf.length with h | h
  · rw [List.getD_eq_getElem _ _ h]
    have hall : b.buf.all (fun x => x < 256) = true := by
      simp only [Bits.wfB, Bool.and_eq_true] at hb
      exact hb.1
    have := (List.all_eq_true.mp hall) _ (List.getElem_mem h)
    simpa using this
  · rw [List.getD_eq_default _ _ h]; norm_num

theorem Bits.length_le_buf (b : Bits) (hb : b.wfB = true) :
    b.length ≤ 8 * b.buf.length := by
  simp only [Bits.wfB, Bool.and_eq_true, decide_eq_true_eq] at hb
  exact hb.2

theorem testBit_of_lt_256 {x t : Nat} (hx : x < 256) (ht : 8 ≤ t) :
    x.testBit t = false := by
  apply Nat.testBit_lt_two_pow
  calc x < 256 := hx
    _ = 2 ^ 8 := by norm_num
    _ ≤ 2 ^ t := Nat.pow_le_pow_right (by norm_num) ht

theorem tailMask_testBit (odd t : Nat) :
    (0xFF <<< (8 - odd)).testBit t =
      (decide (8 - odd ≤ t) && decide (t < (8 - odd) + 8)) := by
  rw [show (0xFF : Nat) = 2 ^ 8 - 1 from rfl, Nat.testBit_shiftLeft,
    Nat.testBit_two_pow_sub_one]
  by_cases hs : 8 - odd ≤ t
  · have : t - (8 - odd) < 8 ↔ t < 8 - odd + 8 := by omega
    simp [hs, this]
  · simp [hs, show ¬(t ≥ 8 - odd) from hs]

theorem Bits.bitsList_length (b : Bits) : b.bitsList.length = b.length := by
  simp [Bits.bitsList]

theorem Bits.bitsList_getElem (b : Bits) (i : Nat) (h : i < b.bitsList.length) :
    b.bitsList[i] = (b.getBit i == 1) := by
  simp [Bits.bitsList]

theorem beq_one_inj {x y : Nat} (hx : x ≤ 1) (hy : y ≤ 1)
    (h : (x == 1) = (y == 1)) : x = y := by
  interval_cases x <;> interval_cases y <;> simp_all

theorem Bits.bitsList_eq_iff (a b : Bits) :
    a.bitsList = b.bitsList ↔
      (a.length = b.length ∧ ∀ i < a.length, a.getBit i = b.getBit i) := by
  constructor
  · intro h
    have hlen : a.length = b.length := by
      have := congrArg List.length h
      simpa [Bits.bitsList_length] using this
    refine ⟨hlen, fun i hi => ?_⟩
    have h1 : i < a.bitsList.length := by simpa [Bits.bitsList_length] using hi
    have h2 : i < b.bitsList.length := by
      simpa [Bits.bitsList_length, ← hlen] using hi
    have e3 : a.bitsList[i] = b.bitsList[i] := by
      simp only [List.getElem_of_eq h h1]
    rw [Bits.bitsList_getElem a i h1, Bits.bitsList_getElem b i h2] at e3
    exact beq_one_inj (Bits.getBit_le_one a i) (Bits.getBit_le_one b i) e3
  · rintro ⟨hlen, hpw⟩
    apply List.ext_getElem
    · simp [Bits.bitsList_length, hlen]
    · intro n h1 h2
      rw [Bits.bitsList_getElem a n h1, Bits.bitsList_getElem b n h2,
        hpw n (by simpa [Bits.bitsList_length] using h1)]

theorem Bits.eqb_iff_parts (a b : Bits) :
    a.eqb b = true ↔
      (a.length = b.length ∧ a.fullWidthPfx = b.fullWidthPfx ∧
        a.tailBits = b.tailBits) := by
  unfold Bits.eqb
  split
  · rename_i h; simp only [Bool.false_eq_true, false_iff]; intro hc
    exact h hc.1
  · rename_i h
    split
    · rename_i h2; simp only [Bool.false_eq_true, false_iff]; intro hc
      exact h2 hc.2.1
    · rename_i h2
      simp only [beq_iff_eq]
      constructor
      · intro h3
        exact ⟨by omega, by simpa using h2, h3⟩
      · exact fun hc => hc.2.2

theorem Bits.testBit_tailBits (b : Bits) (hodd : b.length % 8 ≠ 0) (k : Nat)
    (hk1 : 8 - b.length % 8 ≤ k) (hk2 : k < 8) :
    b.tailBits.testBit k = (b.buf.getD (b.length / 8) 0).testBit k := by
  unfold Bits.tailBits
  simp only [hodd, ne_eq, not_false_eq_true, if_true]
  rw [Nat.testBit_land, tailMask_testBit]
  have e1 : decide (8 - b.length % 8 ≤ k) = true := by simp [hk1]
  have e2 : decide (k < 8 - b.length % 8 + 8) = true := by
    simp; omega
  rw [e1, e2]; simp

theorem Bits.tailBits_lt_256 (b : Bits) (hb : b.wfB = true) :
    b.tailBits < 256 := by
  unfold Bits.tailBits
  split
  · exact lt_of_le_of_lt Nat.and_le_left (Bits.byteD_lt b hb _)
  · norm_num

theorem Bits.testBit_tailBits_low (b : Bits) (k : Nat)
    (hk : k < 8 - b.length % 8) : b.tailBits.testBit k = false := by
  unfold Bits.tailBits
  split
  · rw [Nat.testBit_land, tailMask_testBit]
    have : decide (8 - b.length % 8 ≤ k) = false := by simp; omega
    rw [this]; simp
  · exact Nat.zero_testBit k

theorem Bits.fwp_getD (b : Bits) (j : Nat) (hj : j < b.length / 8) :
    b.fullWidthPfx.getD j 0 = b.buf.getD j 0 := by
  rw [List.getD_eq_getElem?_getD, List.getD_eq_getElem?_getD, Bits.fullWidthPfx,
    List.getElem?_take, if_pos hj]

theorem Bits.getBit_eq_of_parts (a b : Bits)
    (hlen : a.length = b.length) (hfwp : a.fullWidthPfx = b.fullWidthPfx)
    (htail : a.tailBits = b.tailBits) (i : Nat) (hi : i < a.length) :
    a.getBit i = b.getBit i := by
  rcases Nat.lt_or_ge (i / 8) (a.length / 8) with hj | hj
  · have hbyte : a.buf.getD (i / 8) 0 = b.buf.getD (i / 8) 0 := by
      rw [← Bits.fwp_getD a _ hj, ← Bits.fwp_getD b _ (hlen ▸ hj), hfwp]
    unfold Bits.getBit
    rw [hbyte]
  · have hj8 : 8 * (i / 8) ≤ i := Nat.mul_div_le i 8 |>.trans_eq (by ring_nf)
    have hieq : i / 8 = a.length / 8 :=
      le_antisymm (Nat.div_le_div_right hi.le) hj
    have hmod : i % 8 < a.length % 8 := by
      have h1 := Nat.div_add_mod i 8
      have h2 := Nat.div_add_mod a.length 8
      omega
    have hodd : a.length % 8 ≠ 0 := by omega
    have hoddb : b.length % 8 ≠ 0 := by omega
    have hk1 : 8 - a.length % 8 ≤ 7 - i % 8 := by omega
    have hk2 : 7 - i % 8 < 8 := by omega
    have ea : a.getBit i = (a.tailBits.testBit (7 - i % 8)).toNat := by
      rw [Bits.getBit_eq_testBit, hieq,
        ← Bits.testBit_tailBits a hodd _ hk1 hk2]
    have eb : b.getBit i = (b.tailBits.testBit (7 - i % 8)).toNat := by
      rw [Bits.getBit_eq_testBit, show i / 8 = b.length / 8 from by omega,
        ← Bits.testBit_tailBits b hoddb _ (by omega) hk2]
    rw [ea, eb, htail]

theorem Bits.buflen_ge (b : Bits) (hb : b.wfB = true) :
    b.length / 8 ≤ b.buf.length := by
  have := Bits.length_le_buf b hb
  omega

theorem Bits.fwp_eq_of_bits (a b : Bits) (ha : a.wfB = true) (hb : b.wfB = true)
    (hlen : a.length = b.length)
    (hpw : ∀ i < a.length, a.getBit i = b.getBit i) :
    a.fullWidthPfx = b.fullWidthPfx := by
  apply List.ext_getElem
  · simp only [Bits.fullWidthPfx, List.length_take]
    rw [min_eq_left (Bits.buflen_ge a ha), hlen,
      min_eq_left (Bits.buflen_ge b hb)]
  · intro j h1 h2
    have hja : j < a.length / 8 :=
      (by simpa [Bits.fullWidthPfx, lt_min_iff] using h1 :
        j < a.length / 8 ∧ j < a.buf.length).1
    have hjb : j < b.length / 8 :=
      (by simpa [Bits.fullWidthPfx, lt_min_iff] using h2 :
        j < b.length / 8 ∧ j < b.buf.length).1
    simp only [Bits.fullWidthPfx]
    rw [List.getElem_take, List.getElem_take]
    have hba : j < a.buf.length := lt_of_lt_of_le hja (Bits.buflen_ge a ha)
    have hbb : j < b.buf.length := lt_of_lt_of_le hjb (Bits.buflen_ge b hb)
    apply Nat.eq_of_testBit_eq
    intro t
    rcases Nat.lt_or_ge t 8 with ht | ht
    · have hia : 8 * j + (7 - t) < a.length := by
        have h8 : 8 * (j + 1) ≤ 8 * (a.length / 8) := by
          exact Nat.mul_le_mul_left 8 hja
        have := Nat.div_mul_le_self a.length 8
        omega
      have := hpw (8 * j + (7 - t)) hia
      rw [Bits.getBit_eq_testBit, Bits.getBit_eq_testBit] at this
      have hdiv : (8 * j + (7 - t)) / 8 = j := by omega
      have hmod : (8 * j + (7 - t)) % 8 = 7 - t := by omega
      rw [hdiv, hmod, show 7 - (7 - t) = t from by omega] at this
      have := toNat_inj_bool this
      rwa [List.getD_eq_getElem _ _ hba, List.getD_eq_getElem _ _ hbb] at this
    · rw [testBit_of_lt_256 ?_ ht, testBit_of_lt_256 ?_ ht]
      · have := Bits.byteD_lt b hb j
        rwa [List.getD_eq_getElem _ _ hbb] at this
      · have := Bits.byteD_lt a ha j
        rwa [List.getD_eq_getElem _ _ hba] at this

theorem Bits.tail_eq_of_bits (a b : Bits) (ha : a.wfB = true) (hb : b.wfB = true)
    (hlen : a.length = b.length)
    (hpw : ∀ i < a.length, a.getBit i = b.getBit i) :
    a.tailBits = b.tailBits := by
  by_cases hodd : a.length % 8 = 0
  · unfold Bits.tailBits
    simp [hodd, ← hlen]
  · have hoddb : b.length % 8 ≠ 0 := by omega
    apply Nat.eq_of_testBit_eq
    intro t
    rcases Nat.lt_or_ge t 8 with ht | ht
    · rcases Nat.lt_or_ge t (8 - a.length % 8) with htl | htl
      · rw [Bits.testBit_tailBits_low a t htl,
          Bits.testBit_tailBits_low b t (by omega)]
      · rw [Bits.testBit_tailBits a hodd t htl ht,
          Bits.testBit_tailBits b hoddb t (by omega) ht]
        have hia : 8 * (a.length / 8) + (7 - t) < a.length := by
          have := Nat.div_add_mod a.length 8
          omega
        have := hpw (8 * (a.length / 8) + (7 - t)) hia
        rw [Bits.getBit_eq_testBit, Bits.getBit_eq_testBit] at this
        have hdiv : (8 * (a.length / 8) + (7 - t)) / 8 = a.length / 8 := by
          omega
        have hmod : (8 * (a.length / 8) + (7 - t)) % 8 = 7 - t := by omega
        rw [hdiv, hmod, show 7 - (7 - t) = t from by omega] at this
        have h9 := toNat_inj_bool this
        have hd : a.length / 8 = b.length / 8 := by omega
        rw [← hd]
        exact h9
    · rw [testBit_of_lt_256 (Bits.tailBits_lt_256 a ha) ht,
        testBit_of_lt_256 (Bits.tailBits_lt_256 b hb) ht]

theorem Bits.eqb_iff_bitsList (a b : Bits) (ha : a.wfB = true)
    (hb : b.wfB = true) :
    a.eqb b = true ↔ a.bitsList = b.bitsList := by
  rw [Bits.eqb_iff_parts, Bits.bitsList_eq_iff]
  constructor
  · rintro ⟨h1, h2, h3⟩
    exact ⟨h1, fun i hi => Bits.getBit_eq_of_parts a b h1 h2 h3 i hi⟩
  · rintro ⟨h1, h2⟩
    exact ⟨h1, Bits.fwp_eq_of_bits a b ha hb h1 h2,
      Bits.tail_eq_of_bits a b ha hb h1 h2⟩

/-! ### Specification-side longest common prefix on bit sequences -/

/-- Longest common prefix of two lists (the mathematical specification that
`Bits.common_pfx` is proved to implement). -/
def listCommonPfx : List Bool → List Bool → List Bool
  | x :: xs, y :: ys => if x = y then x :: listCommonPfx xs ys else []
  | _, _ => []

theorem listCommonPfx_nil_right (xs : List Bool) : listCommonPfx xs [] = [] := by
  cases xs <;> rfl

theorem listCommonPfx_comm (xs ys : List Bool) :
    listCommonPfx xs ys = listCommonPfx ys xs := by
  induction xs generalizing ys with
  | nil => cases ys <;> rfl
  | cons x xs ih =>
    cases ys with
    | nil => rfl
    | cons y ys =>
      simp only [listCommonPfx]
      by_cases h : x = y
      · subst h; simp [ih]
      · rw [if_neg h, if_neg (fun hh => h hh.symm)]

theorem listCommonPfx_char (xs ys : List Bool) (n : Nat)
    (h1 : n ≤ xs.length) (h2 : n ≤ ys.length)
    (h3 : ∀ i < n, xs.getD i false = ys.getD i false)
    (h4 : n = xs.length ∨ n = ys.length ∨ xs.getD n false ≠ ys.getD n false) :
    listCommonPfx xs ys = xs.take n := by
  induction xs generalizing ys n with
  | nil =>
    have : n = 0 := by simpa using h1
    subst this
    cases ys <;> rfl
  | cons x xs ih =>
    cases ys with
    | nil =>
      have : n = 0 := by simpa using h2
      subst this
      simp only [List.take_zero]
      rfl
    | cons y ys =>
      cases n with
      | zero =>
        rcases h4 with h4 | h4 | h4
        · simp at h4
        · simp at h4
        · have hxy : x ≠ y := by simpa using h4
          simp [listCommonPfx, hxy]
      | succ m =>
        have hxy : x = y := by simpa using h3 0 (Nat.succ_pos m)
        cases hxy
        simp only [listCommonPfx, if_pos rfl, if_true, eq_self_iff_true,
          List.take_succ_cons]
        congr 1
        apply ih ys m
        · simpa using h1
        · simpa using h2
        · intro i hi
          simpa using h3 (i + 1) (by omega)
        · rcases h4 with h4 | h4 | h4
          · left; simpa using h4
          · right; left; simpa using h4
          · right; right; simpa using h4

theorem listCommonPfx_pfx_left (xs ys : List Bool) :
    listCommonPfx xs ys <+: xs := by
  induction xs generalizing ys with
  | nil => cases ys <;> simp [listCommonPfx]
  | cons x xs ih =>
    cases ys with
    | nil => simp [listCommonPfx]
    | cons y ys =>
      simp only [listCommonPfx]
      split
      · rename_i h
        exact List.cons_prefix_cons.mpr ⟨rfl, ih ys⟩
      · exact List.nil_prefix

theorem listCommonPfx_pfx_right (xs ys : List Bool) :
    listCommonPfx xs ys <+: ys := by
  rw [listCommonPfx_comm]; exact listCommonPfx_pfx_left ys xs

/-! ### Correctness of the two scanning loops in `Bits.common_prefix` -/

theorem byte_no_top : ∀ d < 256, d &&& 0x80 = 0 → d < 128 := by decide

theorem shift_mask_eq_double : ∀ d < 128, (d <<< 1) &&& 0xFF = 2 * d := by
  decide

theorem top_testBit : ∀ d < 256, (d &&& 0x80 = 0) = (d.testBit 7 = false) := by
  decide


/-- Index (from the top) of the first set bit of a byte; 8 when the byte is
zero.  Used only to specify the `bitScan` loop. -/
def firstTopIdx (d : Nat) : Nat :=
  if d.testBit 7 then 0 else if d.testBit 6 then 1 else if d.testBit 5 then 2
  else if d.testBit 4 then 3 else if d.testBit 3 then 4 else if d.testBit 2 then 5
  else if d.testBit 1 then 6 else if d.testBit 0 then 7 else 8

theorem firstTopIdx_double : ∀ d < 128, d ≠ 0 →
    firstTopIdx (2 * d) + 1 = firstTopIdx d := by decide

theorem firstTopIdx_le : ∀ d < 256, d ≠ 0 → firstTopIdx d ≤ 7 := by decide

theorem double_ne_zero {d : Nat} (hd : d ≠ 0) : 2 * d ≠ 0 := by omega

theorem testBit_double {d j : Nat} (hj : 1 ≤ j) :
    (2 * d).testBit j = d.testBit (j - 1) := by
  have h : 2 * d = d <<< 1 := by
    rw [Nat.shiftLeft_eq]; ring
  rw [h, Nat.testBit_shiftLeft]
  simp [hj]

theorem Bits.bitScan_spec (L : Nat) : ∀ diff cpl : Nat, diff < 256 → cpl ≤ L →
    cpl ≤ Bits.bitScan L diff cpl ∧
    Bits.bitScan L diff cpl ≤ L ∧
    (∀ k, cpl ≤ k → k < Bits.bitScan L diff cpl →
      diff.testBit (7 - (k - cpl)) = false) ∧
    (Bits.bitScan L diff cpl < L →
      diff.testBit (7 - (Bits.bitScan L diff cpl - cpl)) = true) ∧
    (diff ≠ 0 → Bits.bitScan L diff cpl ≤ cpl + firstTopIdx diff) ∧
    (diff = 0 → Bits.bitScan L diff cpl = L) := by
  intro diff cpl
  induction diff, cpl using Bits.bitScan.induct L with
  | case1 diff cpl hcond ih =>
    intro hdl hcl
    have hrw : Bits.bitScan L diff cpl
        = Bits.bitScan L ((diff <<< 1) &&& 0xFF) (cpl + 1) := by
      rw [Bits.bitScan, dif_pos hcond]
    have hd128 : diff < 128 := byte_no_top diff hdl hcond.2
    have hdbl : (diff <<< 1) &&& 0xFF = 2 * diff := shift_mask_eq_double diff hd128
    have htop : diff.testBit 7 = false := by
      have h := top_testBit diff hdl
      rw [← h]
      exact hcond.2
    have ih2 := ih (by rw [hdbl]; omega) (by omega)
    rw [hdbl] at ih2
    obtain ⟨i1, i2, i3, i4, i5, i6⟩ := ih2
    rw [hrw, hdbl]
    have hfti : diff ≠ 0 → firstTopIdx (2 * diff) + 1 = firstTopIdx diff :=
      firstTopIdx_double diff hd128
    have hfti7 : diff ≠ 0 → firstTopIdx diff ≤ 7 :=
      firstTopIdx_le diff (by omega)
    refine ⟨by omega, i2, ?_, ?_, ?_, ?_⟩
    · intro k hk1 hk2
      rcases Nat.eq_or_lt_of_le hk1 with hk | hk
      · rw [← hk]
        simpa using htop
      · by_cases hdz : diff = 0
        · subst hdz
          simp [Nat.zero_testBit]
        · have hb := i5 (double_ne_zero hdz)
          have hle6 : k - (cpl + 1) ≤ 6 := by
            have := hfti hdz
            have := hfti7 hdz
            omega
          have h3 := i3 k (by omega) hk2
          rwa [testBit_double (by omega : 1 ≤ 7 - (k - (cpl + 1))),
            show 7 - (k - (cpl + 1)) - 1 = 7 - (k - cpl) from by omega] at h3
    · intro hlt
      by_cases hdz : diff = 0
      · exact absurd (i6 (by omega)) (by omega)
      · have hb := i5 (double_ne_zero hdz)
        have hge : cpl + 1 ≤ Bits.bitScan L (2 * diff) (cpl + 1) := i1
        have hle6 : Bits.bitScan L (2 * diff) (cpl + 1) - (cpl + 1) ≤ 6 := by
          have := hfti hdz
          have := hfti7 hdz
          omega
        have h4 := i4 hlt
        rwa [testBit_double
          (by omega : 1 ≤ 7 - (Bits.bitScan L (2 * diff) (cpl + 1) - (cpl + 1))),
          show 7 - (Bits.bitScan L (2 * diff) (cpl + 1) - (cpl + 1)) - 1
            = 7 - (Bits.bitScan L (2 * diff) (cpl + 1) - cpl) from by omega]
          at h4
    · intro hdz
      have h5 := i5 (double_ne_zero hdz)
      have := hfti hdz
      omega
    · intro hdz
      exact i6 (by omega)
  | case2 diff cpl hcond =>
    intro hdl hcl
    have hrw : Bits.bitScan L diff cpl = cpl := by
      rw [Bits.bitScan, dif_neg hcond]
    rw [hrw]
    push_neg at hcond
    refine ⟨le_refl _, hcl,
      fun k h1 h2 => absurd (lt_of_le_of_lt h1 h2) (lt_irrefl cpl),
      ?_, fun _ => by omega, ?_⟩
    · intro hlt
      have hne := hcond hlt
      have h2 := top_testBit diff hdl
      have h7 : diff.testBit 7 = true := by
        by_contra hc
        have hf : diff.testBit 7 = false := by simpa using hc
        have h0 : diff &&& 0x80 = 0 := by rw [h2]; exact hf
        exact hne h0
      simpa [Nat.sub_self] using h7
    · intro hdz
      subst hdz
      have hnl : ¬ cpl < L := fun hl => (hcond hl) (by decide)
      omega

theorem Bits.firstDiffByte_none (xs ys : List Nat) : ∀ i n : Nat,
    Bits.firstDiffByte xs ys i n = none →
    ∀ j, i ≤ j → j < n → xs.getD j 0 = ys.getD j 0 := by
  intro i n
  induction i, n using Bits.firstDiffByte.induct xs ys with
  | case1 i n hin hne =>
    rw [Bits.firstDiffByte, dif_pos hin, if_pos hne]
    intro h
    exact absurd h (by simp)
  | case2 i n hin hne ih =>
    rw [Bits.firstDiffByte, dif_pos hin, if_neg hne]
    intro h j hij hjn
    rcases Nat.eq_or_lt_of_le hij with hj | hj
    · rw [← hj]
      exact not_not.mp hne
    · exact ih h j hj hjn
  | case3 i n hin =>
    intro _ j hij hjn
    omega
  
theorem Bits.firstDiffByte_some (xs ys : List Nat) : ∀ i n k : Nat,
    Bits.firstDiffByte xs ys i n = some k →
    i ≤ k ∧ k < n ∧ xs.getD k 0 ≠ ys.getD k 0 ∧
      ∀ j, i ≤ j → j < k → xs.getD j 0 = ys.getD j 0 := by
  intro i n
  induction i, n using Bits.firstDiffByte.induct xs ys with
  | case1 i n hin hne =>
    intro k h
    rw [Bits.firstDiffByte, dif_pos hin, if_pos hne] at h
    obtain rfl : i = k := by simpa using h
    exact ⟨le_refl i, hin, hne, fun j h1 h2 => by omega⟩
  | case2 i n hin hne ih =>
    intro k h
    rw [Bits.firstDiffByte, dif_pos hin, if_neg hne] at h
    obtain ⟨h1, h2, h3, h4⟩ := ih k h
    refine ⟨by omega, h2, h3, fun j hj1 hj2 => ?_⟩
    rcases Nat.eq_or_lt_of_le hj1 with hj | hj
    · rw [← hj]
      exact not_not.mp hne
    · exact h4 j hj hj2
  | case3 i n hin =>
    intro k h
    rw [Bits.firstDiffByte, dif_neg hin] at h
    exact absurd h (by simp)

theorem Bits.getBit_eq_of_byte (lhs rhs : Bits) (i : Nat)
    (h : lhs.buf.getD (i / 8) 0 = rhs.buf.getD (i / 8) 0) :
    lhs.getBit i = rhs.getBit i := by
  unfold Bits.getBit
  rw [h]

theorem Bits.getBit_decomp (b : Bits) (j t : Nat) (ht : t ≤ 7) :
    b.getBit (8 * j + t) = ((b.buf.getD j 0).testBit (7 - t)).toNat := by
  rw [Bits.getBit_eq_testBit,
    show (8 * j + t) / 8 = j from by omega,
    show (8 * j + t) % 8 = t from by omega]

theorem testBit_xor_false {x y k : Nat} (h : (x ^^^ y).testBit k = false) :
    x.testBit k = y.testBit k := by
  rw [Nat.testBit_xor] at h
  cases hx : x.testBit k <;> cases hy : y.testBit k <;> simp_all

theorem testBit_xor_true {x y k : Nat} (h : (x ^^^ y).testBit k = true) :
    x.testBit k ≠ y.testBit k := by
  rw [Nat.testBit_xor] at h
  intro hc
  rw [hc] at h
  simp at h

theorem Bits.scanPhase (lhs rhs : Bits) (hl : lhs.wfB = true)
    (hr : rhs.wfB = true) (k : Nat) (hkn : k * 8 < lhs.length)
    (hbytes : ∀ j, j < k → lhs.buf.getD j 0 = rhs.buf.getD j 0)
    (hcase : lhs.length ≤ k * 8 + 8 ∨
      (lhs.buf.getD k 0) ^^^ (rhs.buf.getD k 0) ≠ 0) :
    k * 8 ≤ Bits.bitScan lhs.length
        ((lhs.buf.getD k 0) ^^^ (rhs.buf.getD k 0)) (k * 8) ∧
    Bits.bitScan lhs.length
        ((lhs.buf.getD k 0) ^^^ (rhs.buf.getD k 0)) (k * 8) ≤ lhs.length ∧
    (∀ i, i < Bits.bitScan lhs.length
        ((lhs.buf.getD k 0) ^^^ (rhs.buf.getD k 0)) (k * 8) →
      lhs.getBit i = rhs.getBit i) ∧
    (Bits.bitScan lhs.length
        ((lhs.buf.getD k 0) ^^^ (rhs.buf.getD k 0)) (k * 8) = lhs.length ∨
      lhs.getBit (Bits.bitScan lhs.length
        ((lhs.buf.getD k 0) ^^^ (rhs.buf.getD k 0)) (k * 8)) ≠
      rhs.getBit (Bits.bitScan lhs.length
        ((lhs.buf.getD k 0) ^^^ (rhs.buf.getD k 0)) (k * 8))) := by
  have hd : (lhs.buf.getD k 0) ^^^ (rhs.buf.getD k 0) < 256 := by
    have h1 : lhs.buf.getD k 0 < 2 ^ 8 := by simpa using Bits.byteD_lt lhs hl k
    have h2 : rhs.buf.getD k 0 < 2 ^ 8 := by simpa using Bits.byteD_lt rhs hr k
    have h3 := Nat.xor_lt_two_pow h1 h2
    simpa using h3
  obtain ⟨i1, i2, i3, i4, i5, i6⟩ :=
    Bits.bitScan_spec lhs.length ((lhs.buf.getD k 0) ^^^ (rhs.buf.getD k 0))
      (k * 8) hd (by omega)
  have hbound : ∀ i, k * 8 ≤ i →
      i < Bits.bitScan lhs.length
        ((lhs.buf.getD k 0) ^^^ (rhs.buf.getD k 0)) (k * 8) →
      i ≤ k * 8 + 7 := by
    intro i hik hir
    rcases hcase with hc | hc
    · omega
    · have := i5 hc
      have := firstTopIdx_le _ hd hc
      omega
  refine ⟨i1, i2, ?_, ?_⟩
  · intro i hir
    rcases Nat.lt_or_ge i (k * 8) with hik | hik
    · exact Bits.getBit_eq_of_byte lhs rhs i (hbytes (i / 8) (by omega))
    · have hi7 : i ≤ k * 8 + 7 := hbound i hik hir
      have hdecomp : i = 8 * k + (i - k * 8) := by omega
      have hxf := i3 i (by omega) hir
      rw [hdecomp, Bits.getBit_decomp lhs k _ (by omega),
        Bits.getBit_decomp rhs k _ (by omega)]
      exact congrArg Bool.toNat (testBit_xor_false hxf)
  · rcases Nat.eq_or_lt_of_le i2 with he | hlt
    · exact Or.inl he
    · right
      have hge := i1
      have hi7 : Bits.bitScan lhs.length
          ((lhs.buf.getD k 0) ^^^ (rhs.buf.getD k 0)) (k * 8) ≤ k * 8 + 7 := by
        rcases hcase with hc | hc
        · omega
        · have := i5 hc
          have := firstTopIdx_le _ hd hc
          omega
      have hxt := i4 hlt
      set r := Bits.bitScan lhs.length
        ((lhs.buf.getD k 0) ^^^ (rhs.buf.getD k 0)) (k * 8) with hrdef
      have hdecomp : r = 8 * k + (r - k * 8) := by omega
      rw [hdecomp, Bits.getBit_decomp lhs k _ (by omega),
        Bits.getBit_decomp rhs k _ (by omega)]
      intro hc
      exact (testBit_xor_true hxt) (toNat_inj_bool hc)

theorem Bits.commonCore_props (lhs rhs : Bits) (hl : lhs.wfB = true)
    (hr : rhs.wfB = true) :
    ∃ cpl, cpl ≤ lhs.length ∧
      (∀ i, i < cpl → lhs.getBit i = rhs.getBit i) ∧
      (cpl = lhs.length ∨ lhs.getBit cpl ≠ rhs.getBit cpl) ∧
      Bits.commonCore lhs rhs =
        (if cpl = lhs.length then lhs else Bits.from_bytes lhs.buf cpl) := by
  rcases hfd : Bits.firstDiffByte lhs.buf rhs.buf 0 (lhs.length / 8)
    with _ | k
  · have hbytes : ∀ j, j < lhs.length / 8 →
        lhs.buf.getD j 0 = rhs.buf.getD j 0 :=
      fun j hj => Bits.firstDiffByte_none lhs.buf rhs.buf 0 _ hfd j
        (Nat.zero_le j) hj
    by_cases hlt : (lhs.length / 8) * 8 < lhs.length
    · have hdiv : ((lhs.length / 8) * 8) / 8 = lhs.length / 8 := by omega
      obtain ⟨p1, p2, p3, p4⟩ := Bits.scanPhase lhs rhs hl hr (lhs.length / 8)
        hlt hbytes (Or.inl (by omega))
      refine ⟨_, p2, p3, p4, ?_⟩
      simp only [Bits.commonCore, hfd, hdiv, if_pos hlt]
    · have hcpl0 : (lhs.length / 8) * 8 = lhs.length := by omega
      refine ⟨lhs.length, le_refl _, ?_, Or.inl rfl, ?_⟩
      · intro i hi
        exact Bits.getBit_eq_of_byte lhs rhs i (hbytes (i / 8) (by omega))
      · simp only [Bits.commonCore, hfd, hcpl0, if_neg (lt_irrefl _), if_pos rfl]
  · obtain ⟨hk0, hkn, hkne, hbytes0⟩ :=
      Bits.firstDiffByte_some lhs.buf rhs.buf 0 _ k hfd
    have hbytes : ∀ j, j < k → lhs.buf.getD j 0 = rhs.buf.getD j 0 :=
      fun j hj => hbytes0 j (Nat.zero_le j) hj
    have hk8 : k * 8 < lhs.length := by omega
    have hdiv : (k * 8) / 8 = k := by omega
    have hdne : (lhs.buf.getD k 0) ^^^ (rhs.buf.getD k 0) ≠ 0 :=
      fun hc => hkne (Nat.xor_eq_zero.mp hc)
    obtain ⟨p1, p2, p3, p4⟩ := Bits.scanPhase lhs rhs hl hr k hk8 hbytes
      (Or.inr hdne)
    refine ⟨_, p2, p3, p4, ?_⟩
    simp only [Bits.commonCore, hfd, hdiv, if_pos hk8]

theorem Bits.from_bytes_bitsList (b : Bits) (cpl : Nat) (hc : cpl ≤ b.length) :
    (Bits.from_bytes b.buf cpl).bitsList = b.bitsList.take cpl := by
  unfold Bits.from_bytes Bits.bitsList
  rw [← List.map_take, List.take_range, min_eq_left hc]
  by_cases h0 : cpl = 0
  · subst h0
    simp
  · simp only [h0, if_neg h0, ite_false]
    rfl

theorem Bits.from_bytes_wfB (b : Bits) (cpl : Nat) (hb : b.wfB = true)
    (hc : cpl ≤ b.length) : (Bits.from_bytes b.buf cpl).wfB = true := by
  unfold Bits.from_bytes Bits.wfB
  by_cases h0 : cpl = 0
  · subst h0
    simp
  · simp only [h0, if_neg h0, ite_false]
    simp only [Bits.wfB, Bool.and_eq_true, decide_eq_true_eq] at hb ⊢
    exact ⟨hb.1, by have := hb.2; omega⟩

theorem Bits.bitsList_getD (b : Bits) (i : Nat) (hi : i < b.length) :
    b.bitsList.getD i false = (b.getBit i == 1) := by
  have h : i < b.bitsList.length := by simpa [Bits.bitsList_length] using hi
  rw [List.getD_eq_getElem _ _ h, Bits.bitsList_getElem]

theorem beq_one_ne {x y : Nat} (hx : x ≤ 1) (hy : y ≤ 1) (h : x ≠ y) :
    (x == 1) ≠ (y == 1) := by
  interval_cases x <;> interval_cases y <;> simp_all

theorem Bits.commonCore_spec (lhs rhs : Bits) (hl : lhs.wfB = true)
    (hr : rhs.wfB = true) (hle : lhs.length ≤ rhs.length) :
    (Bits.commonCore lhs rhs).bitsList =
      listCommonPfx lhs.bitsList rhs.bitsList ∧
    (Bits.commonCore lhs rhs).wfB = true := by
  obtain ⟨cpl, h1, h2, h3, h4⟩ := Bits.commonCore_props lhs rhs hl hr
  have hchar : listCommonPfx lhs.bitsList rhs.bitsList
      = lhs.bitsList.take cpl := by
    apply listCommonPfx_char
    · simpa [Bits.bitsList_length] using h1
    · simp only [Bits.bitsList_length]
      omega
    · intro i hi
      rw [Bits.bitsList_getD lhs i (by omega), Bits.bitsList_getD rhs i
        (by omega), h2 i hi]
    · rcases h3 with h3 | h3
      · left
        simpa [Bits.bitsList_length] using h3
      · rcases Nat.eq_or_lt_of_le h1 with hcl | hcl
        · left
          simpa [Bits.bitsList_length] using hcl
        · right; right
          rw [Bits.bitsList_getD lhs cpl (by omega), Bits.bitsList_getD rhs cpl
            (by omega)]
          exact beq_one_ne (Bits.getBit_le_one lhs cpl)
            (Bits.getBit_le_one rhs cpl) h3
  rw [h4]
  by_cases hce : cpl = lhs.length
  · rw [if_pos hce, hchar]
    refine ⟨?_, hl⟩
    rw [hce, ← Bits.bitsList_length lhs, List.take_length]
  · rw [if_neg hce, hchar]
    exact ⟨Bits.from_bytes_bitsList lhs cpl h1,
      Bits.from_bytes_wfB lhs cpl hl h1⟩

theorem Bits.common_pfx_spec (a b : Bits) (ha : a.wfB = true)
    (hb : b.wfB = true) :
    (a.common_pfx b).bitsList = listCommonPfx a.bitsList b.bitsList ∧
    (a.common_pfx b).wfB = true := by
  unfold Bits.common_pfx
  split
  · exact Bits.commonCore_spec a b ha hb (by omega)
  · rw [listCommonPfx_comm]
    exact Bits.commonCore_spec b a hb ha (by omega)

theorem Bits.prefixSlice_bitsList (b : Bits) (stop : Nat) (hs : stop ≤ b.length) :
    (b.prefixSlice stop).bitsList = b.bitsList.take stop := by
  unfold Bits.prefixSlice
  by_cases h0 : stop = 0
  · subst h0
    simp [Bits.empty, Bits.bitsList]
  · rw [if_neg h0]
    by_cases hl : stop = b.length
    · rw [if_pos hl, hl, ← Bits.bitsList_length b, List.take_length]
    · rw [if_neg hl]
      unfold Bits.bitsList
      rw [← List.map_take, List.take_range, min_eq_left hs]
      rfl

theorem Bits.prefixSlice_wfB (b : Bits) (stop : Nat) (hb : b.wfB = true)
    (hs : stop ≤ b.length) : (b.prefixSlice stop).wfB = true := by
  unfold Bits.prefixSlice
  by_cases h0 : stop = 0
  · subst h0
    simp [Bits.empty, Bits.wfB]
  · rw [if_neg h0]
    by_cases hl : stop = b.length
    · rw [if_pos hl]
      exact hb
    · rw [if_neg hl]
      simp only [Bits.wfB, Bool.and_eq_true, decide_eq_true_eq] at hb ⊢
      exact ⟨hb.1, by have := hb.2; omega⟩

theorem Bits.startswith_iff (b p : Bits) (hb : b.wfB = true)
    (hp : p.wfB = true) :
    b.startswith p = true ↔ p.bitsList <+: b.bitsList := by
  unfold Bits.startswith
  split
  · rename_i hgt
    simp only [Bool.false_eq_true, false_iff]
    intro hc
    have := hc.length_le
    simp only [Bits.bitsList_length] at this
    omega
  · rename_i hgt
    split
    · rename_i hlen
      rw [Bits.eqb_iff_bitsList p b hp hb]
      constructor
      · intro h
        exact h ▸ List.prefix_refl _
      · intro h
        exact h.eq_of_length (by simp [Bits.bitsList_length, hlen])
    · rename_i hlen
      have hle : p.length ≤ b.length := by omega
      rw [Bits.eqb_iff_bitsList _ p (Bits.prefixSlice_wfB b p.length hb hle) hp,
        Bits.prefixSlice_bitsList b p.length hle]
      rw [List.prefix_iff_eq_take, Bits.bitsList_length]
      constructor
      · intro h
        exact h.symm
      · intro h
        exact h.symm

theorem Bits.getItem_ok (b : Bits) (i : Nat) (hi : i < b.length) :
    b.getItem (i : Int) = .ok (b.getBit i) := by
  unfold Bits.getItem
  have h1 : ¬ ((i : Int) < 0) := by omega
  rw [if_neg h1]
  have h2 : (0 : Int) ≤ (i : Int) ∧ (i : Int) < (b.length : Int) := by omega
  rw [if_pos h2]
  simp

/-! ### The Merbinner tree (RadixMap), from `merbinnertree.py`, in the
`IntMBTree` configuration of the repository's tests: keys are 32-byte strings
serialized with `Digest`, values are `UInt64` numbers, and
`key2prefix(key) = Bits.from_bytes(key)`. -/

/-- Validity of a key for the `Digest` key serializer: exactly 32 bytes.  The
`x < 256` conjunct is the byte-range invariant that Python's `bytes` type
provides for free. -/
def validKey (k : List Nat) : Bool :=
  k.length == 32 && k.all (fun x => x < 256)

/-- `IntMBTree.key2pfx`: `Bits.from_bytes(key)`, whose default length is
`len(buf) * 8`. -/
def key2pfx (k : List Nat) : Bits :=
  Bits.from_bytes k (k.length * 8)

/-- A Merbinner tree node: the `Empty`, `Leaf` and `Inner` variants of the
`MerbinnerTree` `ProofUnion` (un-pruned instances). -/
inductive MBNode where
  | empty
  | leaf (key : List Nat) (value : Nat)
  | inner (left right : MBNode) (pfx : Bits)
deriving DecidableEq

/-- The `prefix` attribute of each variant: `Bits()` for `Empty`,
`key2prefix(key)` for a `Leaf`, the stored field for an `Inner` node. -/
def MBNode.nodePfx : MBNode → Bits
  | .empty => Bits.empty
  | .leaf k _ => key2pfx k
  | .inner _ _ p => p

/-- Symbolic value of a node's commitment hash.  `proof.py` derives
`hash = H(HASHTAG || data_hash)` where `data_hash` hashes, in declared field
order, the serialized bytes of plain fields (`Digest` key bytes, `UInt64`
varuint, `BitsSerializer` output — all injective in the data below) and the
hashes of child nodes, with a per-variant domain-separated tag.  `H` is
modelled as a free constructor (collision-free), so two nodes have equal
hashes exactly when this symbolic value coincides. -/
inductive MBHash where
  | emptyH
  | leafH (key : List Nat) (value : Nat)
  | innerH (pfxBits : List Bool) (l r : MBHash)
deriving DecidableEq

/-- Hash of a fully present Merbinner node (see `MBHash`). -/
def MBNode.hashE : MBNode → MBHash
  | .empty => .emptyH
  | .leaf k v => .leafH k v
  | .inner l r p => .innerH p.bitsList l.hashE r.hashE

/-- `Proof.__eq__`: two proof objects compare equal exactly when their hashes
are equal. -/
def MBNode.nodeEq (a b : MBNode) : Bool := a.hashE == b.hashE

/-- `MerbinnerTreeLeafNode.__new__`, including the serializer
`check_instance` calls made by `Proof.__new__` (`Digest` for the key,
`UInt64` for the value; both raise `SerializerValueError` on out-of-range
data). -/
def MBNode.mkLeaf (key : List Nat) (value : Nat) : Except PyErr MBNode :=
  if key.length ≠ 32 then .error .serValueError
  else if 2 ^ 64 - 1 < value then .error .serValueError
  else .ok (.leaf key value)

/-- `MerbinnerTreeInnerNode.__new__`: assert the two prefixes differ, compute
the common prefix, assert it is strictly shorter than the first prefix and no
longer than the second, then order the children by the bit after the common
prefix (an out-of-range bit index raises `IndexError`, as in
`Bits.__getitem__`). -/
def MBNode.mkInner (first second : MBNode) : Except PyErr MBNode :=
  if first.nodePfx.eqb second.nodePfx then .error .assertionError
  else
    let p := first.nodePfx.common_pfx second.nodePfx
    if ¬ (p.length < first.nodePfx.length ∧
        p.length ≤ second.nodePfx.length) then .error .assertionError
    else do
      let bit ← second.nodePfx.getItem (p.length : Int)
      if bit ≠ 0 then .ok (.inner first second p)
      else .ok (.inner second first p)

/-- `descend(prefix)`: the first yielded node (where the descent terminated)
together with the bypassed siblings in deepest-first order.  The generator is
consumed eagerly by all callers (`put`, `remove`, `__getitem__`). -/
def MBNode.descend : MBNode → Bits → Except PyErr (MBNode × List MBNode)
  | .empty, _ => .ok (.empty, [])
  | .leaf k v, _ => .ok (.leaf k v, [])
  | .inner l r p, pfx =>
    if p.length ≤ pfx.length ∧ pfx.startswith p = true then do
      let bit ← pfx.getItem (p.length : Int)
      if bit ≠ 0 then do
        let cs ← r.descend pfx
        .ok (cs.1, cs.2 ++ [l])
      else do
        let cs ← l.descend pfx
        .ok (cs.1, cs.2 ++ [r])
    else .ok (.inner l r p, [])

/-- `MerbinnerTree.put(key, value)`: build the new leaf, descend along its
prefix, then either replace the terminal `Empty` node or join with the
terminal node and fold the bypassed siblings back on. -/
def MBNode.put (t : MBNode) (key : List Nat) (value : Nat) :
    Except PyErr MBNode := do
  let newLeaf ← MBNode.mkLeaf key value
  let cs ← t.descend newLeaf.nodePfx
  match cs.1 with
  | .empty => .ok newLeaf
  | closest => do
    let tip0 ← MBNode.mkInner newLeaf closest
    cs.2.foldlM (fun tip sib => MBNode.mkInner tip sib) tip0

/-- `MerbinnerTree.__getitem__(key)`: descend along `key2prefix(key)`; a hit
requires the terminal node to be a leaf carrying exactly `key`; every other
outcome is `KeyError` (inner/empty terminals have no `key` attribute, which
the source catches as `AttributeError`). -/
def MBNode.getValue (t : MBNode) (key : List Nat) : Except PyErr Nat := do
  let cs ← t.descend (key2pfx key)
  match cs.1 with
  | .leaf k v => if k = key then .ok v else .error .keyError
  | _ => .error .keyError

/-- Leaf entries of the tree in left-to-right order (`items()`). -/
def MBNode.entries : MBNode → List (List Nat × Nat)
  | .empty => []
  | .leaf k v => [(k, v)]
  | .inner l r _ => l.entries ++ r.entries

/-- Node count, used as a termination measure for `issubset`. -/
def MBNode.size : MBNode → Nat
  | .empty => 1
  | .leaf _ _ => 1
  | .inner l r _ => l.size + r.size + 1

mutual

/-- `MerbinnerTree.issubset(other)`: short-circuit on equality (which is hash
equality), nothing is a superset of a non-empty tree starting from `Empty`,
otherwise dispatch to the variant implementation. -/
def MBNode.issubset (s o : MBNode) : Except PyErr Bool :=
  if MBNode.nodeEq s o then .ok true
  else if MBNode.nodeEq o .empty then .ok false
  else MBNode.isubAux s o
termination_by (s.size + o.size, 1)
decreasing_by
all_goals exact Prod.Lex.right _ (by omega)

/-- The per-variant `_MerbinnerTree__issubset` implementations: `Empty` is a
subset of anything; a `Leaf` looks its key up in `other` (catching only
`KeyError`); an `Inner` node recurses pairwise on equal prefixes (with the
source's asserts), descends into `them` when its own prefix is strictly more
specific (accessing `them.right`/`them.left`, an `AttributeError` on
non-inner nodes), and answers `False` on diverging prefixes. -/
def MBNode.isubAux (s o : MBNode) : Except PyErr Bool :=
  match s, o with
  | .empty, _ => .ok true
  | .leaf k v, other =>
    match other.getValue k with
    | .ok ov => .ok (v == ov)
    | .error .keyError => .ok false
    | .error e => .error e
  | .inner l r p, them =>
    if MBNode.nodeEq (.inner l r p) them then .ok true
    else if p.eqb them.nodePfx then
      match them with
      | .inner l2 r2 _ =>
        if MBNode.nodeEq l l2 && MBNode.nodeEq r r2 then .error .assertionError
        else do
          let b1 ← MBNode.issubset l l2
          if b1 then MBNode.issubset r r2 else .ok false
      | _ => .error .assertionError
    else if p.startswith them.nodePfx then
      if ¬ them.nodePfx.length < p.length then .error .assertionError
      else do
        let bit ← p.getItem (them.nodePfx.length : Int)
        match them with
        | .inner l2 r2 _ =>
          if bit ≠ 0 then MBNode.isubAux (.inner l r p) r2
          else MBNode.isubAux (.inner l r p) l2
        | _ => .error .attributeError
    else .ok false
termination_by (s.size + o.size, 0)
decreasing_by
all_goals apply Prod.Lex.left
all_goals simp [MBNode.size]
all_goals omega

end

/-! ### Prefix combinatorics on bit sequences -/

theorem pfx_getD_lt {zs xs : List Bool} (h : zs <+: xs) {i : Nat}
    (hi : i < zs.length) : xs.getD i false = zs.getD i false := by
  obtain ⟨t, rfl⟩ := h
  rw [List.getD_eq_getElem?_getD, List.getD_eq_getElem?_getD,
    List.getElem?_append_left hi]

theorem pfx_ext_getD {zs xs : List Bool} {b : Bool} (h : (zs ++ [b]) <+: xs) :
    xs.getD zs.length false = b := by
  have h2 := @pfx_getD_lt (zs ++ [b]) xs h zs.length (by simp)
  rw [h2, List.getD_eq_getElem?_getD, List.getElem?_append_right (le_refl _)]
  simp

theorem pfx_snoc_of_getD {zs xs : List Bool} {b : Bool} (h : zs <+: xs)
    (hl : zs.length < xs.length) (hb : xs.getD zs.length false = b) :
    (zs ++ [b]) <+: xs := by
  obtain ⟨t, rfl⟩ := h
  have ht : t ≠ [] := by
    intro hc
    subst hc
    simp at hl
  obtain ⟨c, cs, rfl⟩ := List.exists_cons_of_ne_nil ht
  have hc : c = b := by
    rw [List.getD_eq_getElem?_getD, List.getElem?_append_right (le_refl _)]
      at hb
    simpa using hb
  subst hc
  exact ⟨cs, by simp⟩

theorem pfx_drop_snoc {zs xs : List Bool} {b : Bool} (h : (zs ++ [b]) <+: xs) :
    zs <+: xs :=
  (List.prefix_append zs [b]).trans h

theorem ne_of_split {zs xs ys : List Bool} {b c : Bool}
    (h1 : (zs ++ [b]) <+: xs) (h2 : (zs ++ [c]) <+: ys) (hbc : b ≠ c) :
    xs ≠ ys := by
  intro hc
  subst hc
  exact hbc ((pfx_ext_getD h1).symm.trans (pfx_ext_getD h2))

theorem listCommonPfx_of_pfx {xs ys : List Bool} (h : ys <+: xs) :
    listCommonPfx xs ys = ys := by
  have hchar := listCommonPfx_char xs ys ys.length h.length_le (le_refl _)
    (fun i hi => pfx_getD_lt h hi) (Or.inr (Or.inl rfl))
  rw [hchar, ← List.prefix_iff_eq_take.mp h]

theorem listCommonPfx_of_split {zs xs ys : List Bool} {b c : Bool}
    (h1 : (zs ++ [b]) <+: xs) (h2 : (zs ++ [c]) <+: ys) (hbc : b ≠ c) :
    listCommonPfx xs ys = zs := by
  have hlx : zs.length < xs.length := by
    have := h1.length_le
    simp at this
    omega
  have hly : zs.length < ys.length := by
    have := h2.length_le
    simp at this
    omega
  have hchar := listCommonPfx_char xs ys zs.length (by omega) (by omega)
    (fun i hi => by
      rw [pfx_getD_lt (pfx_drop_snoc h1) hi, pfx_getD_lt (pfx_drop_snoc h2) hi])
    (Or.inr (Or.inr (by
      rw [pfx_ext_getD h1, pfx_ext_getD h2]
      exact hbc)))
  rw [hchar, ← List.prefix_iff_eq_take.mp (pfx_drop_snoc h1)]

theorem listCommonPfx_longest {zs xs ys : List Bool} (h1 : zs <+: xs)
    (h2 : zs <+: ys) : zs <+: listCommonPfx xs ys := by
  induction zs generalizing xs ys with
  | nil => exact List.nil_prefix
  | cons z zs ih =>
    obtain ⟨t1, rfl⟩ := h1
    obtain ⟨t2, rfl⟩ := h2
    simp only [List.cons_append, listCommonPfx, if_pos rfl]
    exact List.cons_prefix_cons.mpr ⟨rfl,
      ih (List.prefix_append zs t1) (List.prefix_append zs t2)⟩

theorem listCommonPfx_split {xs ys : List Bool}
    (h1 : (listCommonPfx xs ys).length < xs.length)
    (h2 : (listCommonPfx xs ys).length < ys.length) :
    (listCommonPfx xs ys ++ [xs.getD (listCommonPfx xs ys).length false])
      <+: xs ∧
    (listCommonPfx xs ys ++ [ys.getD (listCommonPfx xs ys).length false])
      <+: ys ∧
    xs.getD (listCommonPfx xs ys).length false ≠
      ys.getD (listCommonPfx xs ys).length false := by
  refine ⟨pfx_snoc_of_getD (listCommonPfx_pfx_left xs ys) h1 rfl,
    pfx_snoc_of_getD (listCommonPfx_pfx_right xs ys) h2 rfl, ?_⟩
  intro hc
  have hsnoc := pfx_snoc_of_getD (listCommonPfx_pfx_left xs ys) h1 rfl
  have hsnoc2 := pfx_snoc_of_getD (listCommonPfx_pfx_right xs ys) h2 rfl
  rw [hc] at hsnoc
  have := listCommonPfx_longest hsnoc hsnoc2
  have hlen := this.length_le
  simp at hlen

/-! ### Well-formed Merbinner trees -/

theorem key2pfx_wfB (k : List Nat) (hk : validKey k = true) :
    (key2pfx k).wfB = true := by
  simp only [validKey, Bool.and_eq_true, beq_iff_eq] at hk
  have h32 : k.length = 32 := hk.1
  simp only [key2pfx, Bits.from_bytes, Bits.wfB]
  have hif : (if k.length * 8 = 0 then ([] : List Nat) else k) = k := by
    rw [if_neg (by rw [h32]; norm_num : ¬ k.length * 8 = 0)]
  simp only [hif, Bool.and_eq_true, decide_eq_true_eq]
  exact ⟨hk.2, by omega⟩

theorem key2pfx_bits_length (k : List Nat) :
    (key2pfx k).bitsList.length = k.length * 8 := by
  rw [Bits.bitsList_length]
  rfl

theorem key2pfx_inj {k1 k2 : List Nat} (h1 : validKey k1 = true)
    (h2 : validKey k2 = true)
    (heq : (key2pfx k1).bitsList = (key2pfx k2).bitsList) : k1 = k2 := by
  simp only [validKey, Bool.and_eq_true, beq_iff_eq] at h1 h2
  obtain ⟨hlen, hpw⟩ := (Bits.bitsList_eq_iff _ _).mp heq
  have hl1 : (key2pfx k1).length = k1.length * 8 := rfl
  have hl2 : (key2pfx k2).length = k2.length * 8 := rfl
  have hlk : k1.length = k2.length := by
    rw [hl1, hl2] at hlen
    omega
  apply List.ext_getElem hlk
  intro j hj1 hj2
  have hne1 : k1.length * 8 ≠ 0 := by
    rw [h1.1]
    norm_num
  have hne2 : k2.length * 8 ≠ 0 := by
    rw [h2.1]
    norm_num
  have hbuf1 : (key2pfx k1).buf = k1 := by
    simp [key2pfx, Bits.from_bytes, hne1]
  have hbuf2 : (key2pfx k2).buf = k2 := by
    simp [key2pfx, Bits.from_bytes, hne2]
  apply Nat.eq_of_testBit_eq
  intro t
  rcases Nat.lt_or_ge t 8 with ht | ht
  · have hia : 8 * j + (7 - t) < (key2pfx k1).length := by
      rw [hl1]
      omega
    have hgb := hpw (8 * j + (7 - t)) hia
    rw [Bits.getBit_decomp _ _ _ (by omega), Bits.getBit_decomp _ _ _ (by omega)]
      at hgb
    have := toNat_inj_bool hgb
    rw [hbuf1, hbuf2, List.getD_eq_getElem _ _ hj1, List.getD_eq_getElem _ _ hj2,
      show 7 - (7 - t) = t from by omega] at this
    exact this
  · have hb1 : k1[j] < 256 := by
      have := (List.all_eq_true.mp h1.2) _ (List.getElem_mem hj1)
      simpa using this
    have hb2 : k2[j] < 256 := by
      have := (List.all_eq_true.mp h2.2) _ (List.getElem_mem hj2)
      simpa using this
    rw [testBit_of_lt_256 hb1 ht, testBit_of_lt_256 hb2 ht]

/-- Whether a node is the `Empty` singleton. -/
def MBNode.isEmptyN : MBNode → Bool
  | .empty => true
  | _ => false

/-- Structural invariant of reachable (built by `put`) Merbinner trees, per
the data-model: leaves carry serializable data; an inner node has two
non-empty well-formed children whose prefixes strictly extend the node's
stored prefix and differ in the bit right after it (`left` carries `false`,
`right` carries `true`). -/
def MBNode.wf : MBNode → Bool
  | .empty => true
  | .leaf k v => validKey k && decide (v < 2 ^ 64)
  | .inner l r p => l.wf && r.wf && !l.isEmptyN && !r.isEmptyN && p.wfB &&
      decide ((p.bitsList ++ [false]) <+: l.nodePfx.bitsList) &&
      decide ((p.bitsList ++ [true]) <+: r.nodePfx.bitsList)

theorem MBNode.wf_inner {l r : MBNode} {p : Bits}
    (h : (MBNode.inner l r p).wf = true) :
    l.wf = true ∧ r.wf = true ∧ l.isEmptyN = false ∧ r.isEmptyN = false ∧
    p.wfB = true ∧ (p.bitsList ++ [false]) <+: l.nodePfx.bitsList ∧
    (p.bitsList ++ [true]) <+: r.nodePfx.bitsList := by
  simp only [MBNode.wf, Bool.and_eq_true, Bool.not_eq_true',
    decide_eq_true_eq] at h
  tauto

theorem MBNode.entries_props (t : MBNode) (hwf : t.wf = true) :
    ∀ e ∈ t.entries, validKey e.1 = true ∧ e.2 < 2 ^ 64 ∧
      t.nodePfx.bitsList <+: (key2pfx e.1).bitsList := by
  induction t with
  | empty => simp [MBNode.entries]
  | leaf k v =>
    intro e he
    simp only [MBNode.entries, List.mem_singleton] at he
    subst he
    simp only [MBNode.wf, Bool.and_eq_true, decide_eq_true_eq] at hwf
    exact ⟨hwf.1, hwf.2, List.prefix_refl _⟩
  | inner l r p ihl ihr =>
    intro e he
    obtain ⟨hl, hr, _, _, _, hpl, hpr⟩ := MBNode.wf_inner hwf
    simp only [MBNode.entries, List.mem_append] at he
    rcases he with he | he
    · obtain ⟨hv, hb, hpfx⟩ := ihl hl e he
      exact ⟨hv, hb, (pfx_drop_snoc hpl).trans hpfx⟩
    · obtain ⟨hv, hb, hpfx⟩ := ihr hr e he
      exact ⟨hv, hb, (pfx_drop_snoc hpr).trans hpfx⟩

theorem MBNode.entries_ne_nil (t : MBNode) (hwf : t.wf = true)
    (hne : t.isEmptyN = false) : t.entries ≠ [] := by
  induction t with
  | empty => simp [MBNode.isEmptyN] at hne
  | leaf k v => simp [MBNode.entries]
  | inner l r p ihl ihr =>
    obtain ⟨hl, hr, hle, hre, _, _, _⟩ := MBNode.wf_inner hwf
    intro hc
    rw [MBNode.entries] at hc
    exact (ihl hl hle) (List.append_eq_nil.mp hc).1

theorem MBNode.key_bits_len {k : List Nat} (hv : validKey k = true) :
    (key2pfx k).bitsList.length = 256 := by
  simp only [validKey, Bool.and_eq_true, beq_iff_eq] at hv
  rw [key2pfx_bits_length, hv.1]

theorem MBNode.pfx_len_le (t : MBNode) (hwf : t.wf = true)
    (hne : t.isEmptyN = false) : t.nodePfx.bitsList.length ≤ 256 := by
  obtain ⟨e, he⟩ := List.exists_mem_of_ne_nil _ (MBNode.entries_ne_nil t hwf hne)
  obtain ⟨hv, _, hpfx⟩ := MBNode.entries_props t hwf e he
  have := hpfx.length_le
  rwa [MBNode.key_bits_len hv] at this

theorem MBNode.pfx_len_lt {l r : MBNode} {p : Bits}
    (hwf : (MBNode.inner l r p).wf = true) : p.bitsList.length < 256 := by
  obtain ⟨hl, _, hle, _, _, hpl, _⟩ := MBNode.wf_inner hwf
  have h1 := MBNode.pfx_len_le l hl hle
  have h2 := hpl.length_le
  simp only [List.length_append, List.length_singleton] at h2
  omega

theorem MBNode.nodePfx_wfB (t : MBNode) (hwf : t.wf = true) :
    t.nodePfx.wfB = true := by
  cases t with
  | empty => rfl
  | leaf k v =>
    simp only [MBNode.wf, Bool.and_eq_true, decide_eq_true_eq] at hwf
    exact key2pfx_wfB k hwf.1
  | inner l r p => exact (MBNode.wf_inner hwf).2.2.2.2.1

theorem MBNode.hashE_entries : ∀ {a b : MBNode}, a.hashE = b.hashE →
    a.entries = b.entries := by
  intro a
  induction a with
  | empty =>
    intro b h
    cases b
    · rfl
    · simp [MBNode.hashE] at h
    · simp [MBNode.hashE] at h
  | leaf k v =>
    intro b h
    cases b <;> simp [MBNode.hashE] at h
    rename_i k2 v2
    simp [MBNode.entries, h.1, h.2]
  | inner l r p ihl ihr =>
    intro b h
    cases b <;> simp [MBNode.hashE] at h
    rename_i l2 r2 p2
    simp only [MBNode.entries, ihl h.2.1, ihr h.2.2]

theorem MBNode.nodeEq_empty_iff (o : MBNode) :
    MBNode.nodeEq o .empty = true ↔ o = .empty := by
  cases o <;> simp [MBNode.nodeEq, MBNode.hashE]

theorem MBNode.nodeEq_entries {a b : MBNode} (h : MBNode.nodeEq a b = true) :
    a.entries = b.entries :=
  MBNode.hashE_entries (by simpa [MBNode.nodeEq] using h)

theorem MBNode.kp_len {k : List Nat} (hk : validKey k = true) :
    (key2pfx k).length = 256 := by
  simp only [validKey, Bool.and_eq_true, beq_iff_eq] at hk
  show k.length * 8 = 256
  rw [hk.1]

theorem MBNode.descend_inner_true {l r : MBNode} {p : Bits} {kp : Bits}
    (hguard : p.length ≤ kp.length ∧ kp.startswith p = true)
    (hplen : p.length < kp.length) :
    (MBNode.inner l r p).descend kp =
      (if kp.getBit p.length ≠ 0
       then (do let cs ← r.descend kp; .ok (cs.1, cs.2 ++ [l]))
       else (do let cs ← l.descend kp; .ok (cs.1, cs.2 ++ [r]))) := by
  rw [MBNode.descend, if_pos hguard, Bits.getItem_ok kp p.length hplen]
  rfl

theorem MBNode.descend_inner_false {l r : MBNode} {p : Bits} {kp : Bits}
    (hguard : ¬ (p.length ≤ kp.length ∧ kp.startswith p = true)) :
    (MBNode.inner l r p).descend kp = .ok (.inner l r p, []) := by
  rw [MBNode.descend, if_neg hguard]

theorem MBNode.getValue_child_r {l r : MBNode} {p : Bits} {k : List Nat}
    (hguard : p.length ≤ (key2pfx k).length ∧
      (key2pfx k).startswith p = true)
    (hplen : p.length < (key2pfx k).length)
    (hbit : (key2pfx k).getBit p.length ≠ 0) :
    (MBNode.inner l r p).getValue k = r.getValue k := by
  unfold MBNode.getValue
  rw [MBNode.descend_inner_true hguard hplen, if_pos hbit]
  cases hr : r.descend (key2pfx k) with
  | error e => rfl
  | ok cs => rfl

theorem MBNode.getValue_child_l {l r : MBNode} {p : Bits} {k : List Nat}
    (hguard : p.length ≤ (key2pfx k).length ∧
      (key2pfx k).startswith p = true)
    (hplen : p.length < (key2pfx k).length)
    (hbit : ¬ (key2pfx k).getBit p.length ≠ 0) :
    (MBNode.inner l r p).getValue k = l.getValue k := by
  unfold MBNode.getValue
  rw [MBNode.descend_inner_true hguard hplen, if_neg hbit]
  cases hr : l.descend (key2pfx k) with
  | error e => rfl
  | ok cs => rfl

theorem MBNode.getValue_miss {l r : MBNode} {p : Bits} {k : List Nat}
    (hguard : ¬ (p.length ≤ (key2pfx k).length ∧
      (key2pfx k).startswith p = true)) :
    (MBNode.inner l r p).getValue k = .error .keyError := by
  unfold MBNode.getValue
  rw [MBNode.descend_inner_false hguard]
  rfl

theorem Bits.getBit_ne_iff (b : Bits) (n : Nat) (hn : n < b.length) :
    (b.getBit n ≠ 0) ↔ b.bitsList.getD n false = true := by
  rw [Bits.bitsList_getD b n hn]
  have hle := Bits.getBit_le_one b n
  constructor
  · intro h
    have h1 : b.getBit n = 1 := by omega
    simp [h1]
  · intro h
    have h1 : b.getBit n = 1 := by simpa using h
    omega

theorem MBNode.inner_guard {l r : MBNode} {p : Bits}
    (hwf : (MBNode.inner l r p).wf = true) {k : List Nat}
    (hk : validKey k = true) :
    (p.length ≤ (key2pfx k).length ∧ (key2pfx k).startswith p = true) ↔
      p.bitsList <+: (key2pfx k).bitsList := by
  have hlen := MBNode.pfx_len_lt hwf
  have hplen : p.length < 256 := by
    rw [← Bits.bitsList_length]
    exact hlen
  have hkl := MBNode.kp_len hk
  have hsw := Bits.startswith_iff (key2pfx k) p (key2pfx_wfB k hk)
    ((MBNode.wf_inner hwf).2.2.2.2.1)
  constructor
  · intro h
    exact hsw.mp h.2
  · intro h
    exact ⟨by omega, hsw.mpr h⟩

theorem MBNode.getValue_mem (t : MBNode) (hwf : t.wf = true) (k : List Nat)
    (v : Nat) (hmem : (k, v) ∈ t.entries) : t.getValue k = .ok v := by
  induction t with
  | empty => simp [MBNode.entries] at hmem
  | leaf k2 v2 =>
    simp only [MBNode.entries, List.mem_singleton, Prod.mk.injEq] at hmem
    obtain ⟨rfl, rfl⟩ := hmem
    exact if_pos rfl
  | inner l r p ihl ihr =>
    obtain ⟨hwl, hwr, _, _, hpwf, hpl, hpr⟩ := MBNode.wf_inner hwf
    have hk : validKey k = true :=
      (MBNode.entries_props _ hwf (k, v) hmem).1
    have hpfx : p.bitsList <+: (key2pfx k).bitsList :=
      (MBNode.entries_props _ hwf (k, v) hmem).2.2
    have hguard := (MBNode.inner_guard hwf hk).mpr hpfx
    have hplen : p.length < (key2pfx k).length := by
      have h1 := MBNode.pfx_len_lt hwf
      rw [Bits.bitsList_length] at h1
      rw [MBNode.kp_len hk]
      exact h1
    rcases List.mem_append.mp (by simpa [MBNode.entries] using hmem)
      with hm | hm
    · have hkey : l.nodePfx.bitsList <+: (key2pfx k).bitsList :=
        (MBNode.entries_props l hwl (k, v) hm).2.2
      have hsnoc : (p.bitsList ++ [false]) <+: (key2pfx k).bitsList :=
        hpl.trans hkey
      have hbit : ¬ (key2pfx k).getBit p.length ≠ 0 := by
        rw [Bits.getBit_ne_iff _ _ hplen]
        rw [show p.length = p.bitsList.length from (Bits.bitsList_length p).symm,
          pfx_ext_getD hsnoc]
        simp
      rw [MBNode.getValue_child_l hguard hplen hbit]
      exact ihl hwl hm
    · have hkey : r.nodePfx.bitsList <+: (key2pfx k).bitsList :=
        (MBNode.entries_props r hwr (k, v) hm).2.2
      have hsnoc : (p.bitsList ++ [true]) <+: (key2pfx k).bitsList :=
        hpr.trans hkey
      have hbit : (key2pfx k).getBit p.length ≠ 0 := by
        rw [Bits.getBit_ne_iff _ _ hplen]
        rw [show p.length = p.bitsList.length from (Bits.bitsList_length p).symm,
          pfx_ext_getD hsnoc]
      rw [MBNode.getValue_child_r hguard hplen hbit]
      exact ihr hwr hm

theorem MBNode.getValue_notmem (t : MBNode) (hwf : t.wf = true) (k : List Nat)
    (hk : validKey k = true) (hnm : ∀ v, (k, v) ∉ t.entries) :
    t.getValue k = .error .keyError := by
  induction t with
  | empty =>
    unfold MBNode.getValue MBNode.descend
    rfl
  | leaf k2 v2 =>
    have hne : k2 ≠ k := by
      intro hc
      subst hc
      exact hnm v2 (by simp [MBNode.entries])
    exact if_neg hne
  | inner l r p ihl ihr =>
    obtain ⟨hwl, hwr, _, _, hpwf, hpl, hpr⟩ := MBNode.wf_inner hwf
    by_cases hguard : p.length ≤ (key2pfx k).length ∧
        (key2pfx k).startswith p = true
    · have hplen : p.length < (key2pfx k).length := by
        have h1 := MBNode.pfx_len_lt hwf
        rw [Bits.bitsList_length] at h1
        rw [MBNode.kp_len hk]
        exact h1
      by_cases hbit : (key2pfx k).getBit p.length ≠ 0
      · rw [MBNode.getValue_child_r hguard hplen hbit]
        exact ihr hwr (fun v hv => hnm v (by simp [MBNode.entries, hv]))
      · rw [MBNode.getValue_child_l hguard hplen hbit]
        exact ihl hwl (fun v hv => hnm v (by simp [MBNode.entries, hv]))
    · exact MBNode.getValue_miss hguard

theorem listCommonPfx_lt_right {xs ys : List Bool} (h : ¬ ys <+: xs) :
    (listCommonPfx xs ys).length < ys.length := by
  have hp := listCommonPfx_pfx_right xs ys
  rcases Nat.eq_or_lt_of_le hp.length_le with he | hlt
  · exact absurd (hp.eq_of_length he ▸ listCommonPfx_pfx_left xs ys) h
  · exact hlt

theorem listCommonPfx_lt_left {xs ys : List Bool} (h : ¬ xs <+: ys) :
    (listCommonPfx xs ys).length < xs.length := by
  rw [listCommonPfx_comm]
  exact listCommonPfx_lt_right h

theorem MBNode.mkInner_spec (f s : MBNode)
    (hf : f.nodePfx.wfB = true) (hs : s.nodePfx.wfB = true)
    (hdiff : f.nodePfx.bitsList ≠ s.nodePfx.bitsList)
    (hl1 : (listCommonPfx f.nodePfx.bitsList s.nodePfx.bitsList).length <
      f.nodePfx.bitsList.length)
    (hl2 : (listCommonPfx f.nodePfx.bitsList s.nodePfx.bitsList).length <
      s.nodePfx.bitsList.length) :
    ∃ p, MBNode.mkInner f s = .ok
      (if s.nodePfx.bitsList.getD
          (listCommonPfx f.nodePfx.bitsList s.nodePfx.bitsList).length false
        = true
       then .inner f s p else .inner s f p) ∧
      p.bitsList = listCommonPfx f.nodePfx.bitsList s.nodePfx.bitsList ∧
      p.wfB = true := by
  obtain ⟨hpb, hpw⟩ := Bits.common_pfx_spec f.nodePfx s.nodePfx hf hs
  refine ⟨f.nodePfx.common_pfx s.nodePfx, ?_, hpb, hpw⟩
  unfold MBNode.mkInner
  rw [if_neg (by
    intro hc
    exact hdiff ((Bits.eqb_iff_bitsList _ _ hf hs).mp hc))]
  have hplen : (f.nodePfx.common_pfx s.nodePfx).length =
      (listCommonPfx f.nodePfx.bitsList s.nodePfx.bitsList).length := by
    rw [← Bits.bitsList_length, hpb]
  have hflen : f.nodePfx.length = f.nodePfx.bitsList.length :=
    (Bits.bitsList_length f.nodePfx).symm
  have hslen : s.nodePfx.length = s.nodePfx.bitsList.length :=
    (Bits.bitsList_length s.nodePfx).symm
  rw [if_neg (not_not_intro ⟨by omega, by omega⟩)]
  rw [Bits.getItem_ok s.nodePfx _ (by omega)]
  have hgb := Bits.getBit_ne_iff s.nodePfx
    (f.nodePfx.common_pfx s.nodePfx).length (by omega)
  rw [hplen] at hgb
  by_cases hbit : s.nodePfx.bitsList.getD
      (listCommonPfx f.nodePfx.bitsList s.nodePfx.bitsList).length false = true
  · rw [if_pos hbit, hplen]
    exact if_pos (hgb.mpr hbit)
  · rw [if_neg hbit, hplen]
    have hz0 : s.nodePfx.getBit
        (listCommonPfx f.nodePfx.bitsList s.nodePfx.bitsList).length = 0 := by
      by_contra hc
      exact hbit (hgb.mp hc)
    exact if_neg (not_not_intro hz0)

theorem MBNode.joinNodes (a b : MBNode) (zs : List Bool) (ba : Bool)
    (ha : a.wf = true) (hb : b.wf = true)
    (hane : a.isEmptyN = false) (hbne : b.isEmptyN = false)
    (hpa : (zs ++ [ba]) <+: a.nodePfx.bitsList)
    (hpb : (zs ++ [!ba]) <+: b.nodePfx.bitsList) :
    ∃ t2, MBNode.mkInner a b = .ok t2 ∧ t2.wf = true ∧
      t2.isEmptyN = false ∧ t2.nodePfx.bitsList = zs ∧
      (∀ e, e ∈ t2.entries ↔ e ∈ a.entries ∨ e ∈ b.entries) := by
  have hban : ba ≠ !ba := by cases ba <;> simp
  have hcommon : listCommonPfx a.nodePfx.bitsList b.nodePfx.bitsList = zs :=
    listCommonPfx_of_split hpa hpb hban
  have hdiff : a.nodePfx.bitsList ≠ b.nodePfx.bitsList :=
    ne_of_split hpa hpb hban
  have hla : zs.length < a.nodePfx.bitsList.length := by
    have := hpa.length_le
    simp only [List.length_append, List.length_singleton] at this
    omega
  have hlb : zs.length < b.nodePfx.bitsList.length := by
    have := hpb.length_le
    simp only [List.length_append, List.length_singleton] at this
    omega
  obtain ⟨p, hmk, hpbits, hpwf⟩ := MBNode.mkInner_spec a b
    (MBNode.nodePfx_wfB a ha) (MBNode.nodePfx_wfB b hb) hdiff
    (by rw [hcommon]; exact hla) (by rw [hcommon]; exact hlb)
  rw [hcommon] at hmk hpbits
  have hgetD : b.nodePfx.bitsList.getD zs.length false = !ba :=
    pfx_ext_getD hpb
  cases hba : ba with
  | false =>
    rw [hba] at hpa hgetD
    simp only [Bool.not_false] at hgetD
    rw [if_pos hgetD] at hmk
    refine ⟨.inner a b p, hmk, ?_, rfl, hpbits, ?_⟩
    · simp only [MBNode.wf, Bool.and_eq_true, Bool.not_eq_true',
        decide_eq_true_eq]
      refine ⟨⟨⟨⟨⟨⟨ha, hb⟩, hane⟩, hbne⟩, hpwf⟩, ?_⟩, ?_⟩
      · rw [hpbits]
        exact hpa
      · rw [hpbits]
        rw [hba] at hpb
        simpa using hpb
    · intro e
      simp [MBNode.entries]
  | true =>
    rw [hba] at hpa hgetD
    simp only [Bool.not_true] at hgetD
    rw [if_neg (by rw [hgetD]; simp)] at hmk
    refine ⟨.inner b a p, hmk, ?_, rfl, hpbits, ?_⟩
    · simp only [MBNode.wf, Bool.and_eq_true, Bool.not_eq_true',
        decide_eq_true_eq]
      refine ⟨⟨⟨⟨⟨⟨hb, ha⟩, hbne⟩, hane⟩, hpwf⟩, ?_⟩, ?_⟩
      · rw [hpbits]
        rw [hba] at hpb
        simpa using hpb
      · rw [hpbits]
        exact hpa
    · intro e
      simp only [MBNode.entries, List.mem_append]
      tauto

theorem exc_bind_ok {α β : Type} (a : α) (f : α → Except PyErr β) :
    (Except.ok a >>= f) = f a := rfl

theorem exc_bind_err {α β : Type} (e : PyErr) (f : α → Except PyErr β) :
    ((Except.error e : Except PyErr α) >>= f) = .error e := rfl

theorem MBNode.leaf_wf {k : List Nat} {v : Nat} (hk : validKey k = true)
    (hv : v < 2 ^ 64) : (MBNode.leaf k v).wf = true := by
  simp only [MBNode.wf, Bool.and_eq_true, decide_eq_true_eq]
  exact ⟨hk, hv⟩

theorem bool_opp {x y : Bool} (h : x ≠ y) : y = !x := by
  cases x <;> cases y <;> simp_all

theorem MBNode.putCore (k : List Nat) (v : Nat) (hk : validKey k = true)
    (hv : v < 2 ^ 64) :
    ∀ t : MBNode, t.wf = true → t.isEmptyN = false →
    (∀ v0, (k, v0) ∉ t.entries) →
    ∃ c sibs t2, t.descend (key2pfx k) = .ok (c, sibs) ∧
      c.isEmptyN = false ∧
      ((MBNode.mkInner (.leaf k v) c) >>= fun tip0 =>
        sibs.foldlM (fun tip sib => MBNode.mkInner tip sib) tip0) = .ok t2 ∧
      t2.wf = true ∧ t2.isEmptyN = false ∧
      t2.nodePfx.bitsList =
        listCommonPfx (key2pfx k).bitsList t.nodePfx.bitsList ∧
      (∀ e, e ∈ t2.entries ↔ e = (k, v) ∨ e ∈ t.entries) := by
  intro t
  induction t with
  | empty =>
    intro _ hne _
    simp [MBNode.isEmptyN] at hne
  | leaf k2 v2 =>
    intro hwf hne hfresh
    have hk2 : validKey k2 = true ∧ v2 < 2 ^ 64 := by
      simpa [MBNode.wf] using hwf
    have hkk2 : k ≠ k2 := by
      intro hc
      subst hc
      exact hfresh v2 (by simp [MBNode.entries])
    have hdiff : (key2pfx k).bitsList ≠ (key2pfx k2).bitsList :=
      fun hc => hkk2 (key2pfx_inj hk hk2.1 hc)
    have hlen1 : (key2pfx k).bitsList.length = 256 :=
      MBNode.key_bits_len hk
    have hlen2 : (key2pfx k2).bitsList.length = 256 :=
      MBNode.key_bits_len hk2.1
    have hnp1 : ¬ (key2pfx k).bitsList <+: (key2pfx k2).bitsList :=
      fun hp => hdiff (hp.eq_of_length (by omega))
    have hnp2 : ¬ (key2pfx k2).bitsList <+: (key2pfx k).bitsList :=
      fun hp => (hdiff (hp.eq_of_length (by omega)).symm)
    obtain ⟨hpa, hpb, hfs⟩ := listCommonPfx_split
      (listCommonPfx_lt_left hnp1) (listCommonPfx_lt_right hnp2)
    rw [bool_opp hfs] at hpb
    obtain ⟨t2, hmk, ht2wf, ht2ne, ht2pfx, ht2ent⟩ :=
      MBNode.joinNodes (.leaf k v) (.leaf k2 v2) _ _
        (MBNode.leaf_wf hk hv) hwf rfl rfl hpa hpb
    refine ⟨.leaf k2 v2, [], t2, rfl, rfl, ?_, ht2wf, ht2ne, ht2pfx, ?_⟩
    · rw [show MBNode.mkInner (.leaf k v) (.leaf k2 v2)
        = MBNode.mkInner (MBNode.leaf k v) (MBNode.leaf k2 v2) from rfl, hmk]
      rfl
    · intro e
      rw [ht2ent e]
      simp [MBNode.entries]
  | inner l r p ihl ihr =>
    intro hwf hne hfresh
    obtain ⟨hwl, hwr, hlne, hrne, hpwf, hpl, hpr⟩ := MBNode.wf_inner hwf
    have hk256 : (key2pfx k).bitsList.length = 256 := MBNode.key_bits_len hk
    have hplt : p.bitsList.length < 256 := MBNode.pfx_len_lt hwf
    have hpleq : p.bitsList.length = p.length := Bits.bitsList_length p
    have hkpeq : (key2pfx k).bitsList.length = (key2pfx k).length :=
      Bits.bitsList_length (key2pfx k)
    have hplen : p.length < (key2pfx k).length := by omega
    by_cases hpfx : p.bitsList <+: (key2pfx k).bitsList
    · have hguard := (MBNode.inner_guard hwf hk).mpr hpfx
      by_cases hbit : (key2pfx k).getBit p.length ≠ 0
      · have hgetD : (key2pfx k).bitsList.getD p.bitsList.length false
            = true := by
          have := (Bits.getBit_ne_iff (key2pfx k) p.length hplen).mp hbit
          rwa [hpleq]
        have hsnoc : (p.bitsList ++ [true]) <+: (key2pfx k).bitsList :=
          pfx_snoc_of_getD hpfx (by omega) hgetD
        have hfr : ∀ v0, (k, v0) ∉ r.entries :=
          fun v0 hc => hfresh v0 (by simp [MBNode.entries, hc])
        obtain ⟨cc, csibs, c2, hdes, hccne, hfold, hc2wf, hc2ne, hc2pfx,
          hc2ent⟩ := ihr hwr hrne hfr
        have hdt : (MBNode.inner l r p).descend (key2pfx k)
            = .ok (cc, csibs ++ [l]) := by
          rw [MBNode.descend_inner_true hguard hplen, if_pos hbit, hdes]
          rfl
        have hc2ext : (p.bitsList ++ [true]) <+: c2.nodePfx.bitsList := by
          rw [hc2pfx]
          exact listCommonPfx_longest hsnoc hpr
        obtain ⟨t2, hmk2, ht2wf, ht2ne, ht2pfx, ht2ent⟩ :=
          MBNode.joinNodes c2 l p.bitsList true hc2wf hwl hc2ne hlne hc2ext
            (by simpa using hpl)
        refine ⟨cc, csibs ++ [l], t2, hdt, hccne, ?_, ht2wf, ht2ne, ?_, ?_⟩
        · cases hmk0 : MBNode.mkInner (.leaf k v) cc with
          | error e =>
            rw [hmk0, exc_bind_err] at hfold
            simp at hfold
          | ok tip0 =>
            rw [hmk0, exc_bind_ok] at hfold
            rw [exc_bind_ok, List.foldlM_append, hfold, exc_bind_ok,
              List.foldlM_cons, hmk2, exc_bind_ok, List.foldlM_nil]
            rfl
        · rw [ht2pfx]
          show p.bitsList = listCommonPfx (key2pfx k).bitsList p.bitsList
          rw [listCommonPfx_of_pfx hpfx]
        · intro e
          rw [ht2ent e]
          simp only [MBNode.entries, List.mem_append]
          rw [hc2ent e]
          tauto
      · have hgetD : (key2pfx k).bitsList.getD p.bitsList.length false
            = false := by
          have hx := Bits.getBit_ne_iff (key2pfx k) p.length hplen
          rw [hpleq]
          rcases Bool.eq_false_or_eq_true
            ((key2pfx k).bitsList.getD p.length false) with h | h
          · exact absurd (hx.mpr h) hbit
          · exact h
        have hsnoc : (p.bitsList ++ [false]) <+: (key2pfx k).bitsList :=
          pfx_snoc_of_getD hpfx (by omega) hgetD
        have hfr : ∀ v0, (k, v0) ∉ l.entries :=
          fun v0 hc => hfresh v0 (by simp [MBNode.entries, hc])
        obtain ⟨cc, csibs, c2, hdes, hccne, hfold, hc2wf, hc2ne, hc2pfx,
          hc2ent⟩ := ihl hwl hlne hfr
        have hdt : (MBNode.inner l r p).descend (key2pfx k)
            = .ok (cc, csibs ++ [r]) := by
          rw [MBNode.descend_inner_true hguard hplen, if_neg hbit, hdes]
          rfl
        have hc2ext : (p.bitsList ++ [false]) <+: c2.nodePfx.bitsList := by
          rw [hc2pfx]
          exact listCommonPfx_longest hsnoc hpl
        obtain ⟨t2, hmk2, ht2wf, ht2ne, ht2pfx, ht2ent⟩ :=
          MBNode.joinNodes c2 r p.bitsList false hc2wf hwr hc2ne hrne hc2ext
            (by simpa using hpr)
        refine ⟨cc, csibs ++ [r], t2, hdt, hccne, ?_, ht2wf, ht2ne, ?_, ?_⟩
        · cases hmk0 : MBNode.mkInner (.leaf k v) cc with
          | error e =>
            rw [hmk0, exc_bind_err] at hfold
            simp at hfold
          | ok tip0 =>
            rw [hmk0, exc_bind_ok] at hfold
            rw [exc_bind_ok, List.foldlM_append, hfold, exc_bind_ok,
              List.foldlM_cons, hmk2, exc_bind_ok, List.foldlM_nil]
            rfl
        · rw [ht2pfx]
          show p.bitsList = listCommonPfx (key2pfx k).bitsList p.bitsList
          rw [listCommonPfx_of_pfx hpfx]
        · intro e
          rw [ht2ent e]
          simp only [MBNode.entries, List.mem_append]
          rw [hc2ent e]
          tauto
    · have hguard : ¬ (p.length ≤ (key2pfx k).length ∧
          (key2pfx k).startswith p = true) :=
        fun hc => hpfx ((MBNode.inner_guard hwf hk).mp hc)
      have hdt : (MBNode.inner l r p).descend (key2pfx k)
          = .ok (.inner l r p, []) := MBNode.descend_inner_false hguard
      have hnp1 : ¬ (key2pfx k).bitsList <+: p.bitsList :=
        fun hp => by
          have := hp.length_le
          omega
      obtain ⟨hpa, hpb, hfs⟩ := listCommonPfx_split
        (listCommonPfx_lt_left hnp1) (listCommonPfx_lt_right hpfx)
      rw [bool_opp hfs] at hpb
      obtain ⟨t2, hmk, ht2wf, ht2ne, ht2pfx, ht2ent⟩ :=
        MBNode.joinNodes (.leaf k v) (.inner l r p) _ _
          (MBNode.leaf_wf hk hv) hwf rfl rfl hpa hpb
      refine ⟨.inner l r p, [], t2, hdt, rfl, ?_, ht2wf, ht2ne, ht2pfx, ?_⟩
      · rw [show MBNode.mkInner (.leaf k v) (.inner l r p)
          = MBNode.mkInner (MBNode.leaf k v) (MBNode.inner l r p) from rfl,
          hmk]
        rfl
      · intro e
        rw [ht2ent e]
        simp [MBNode.entries]

theorem MBNode.mkLeaf_ok {k : List Nat} {v : Nat} (hk : validKey k = true)
    (hv : v < 2 ^ 64) : MBNode.mkLeaf k v = .ok (.leaf k v) := by
  have h32 : k.length = 32 := by
    simp only [validKey, Bool.and_eq_true, beq_iff_eq] at hk
    exact hk.1
  unfold MBNode.mkLeaf
  rw [if_neg (by omega), if_neg (by omega)]

theorem MBNode.put_spec (t : MBNode) (hwf : t.wf = true) (k : List Nat)
    (v : Nat) (hk : validKey k = true) (hv : v < 2 ^ 64)
    (hfresh : ∀ v0, (k, v0) ∉ t.entries) :
    ∃ t2, t.put k v = .ok t2 ∧ t2.wf = true ∧ t2.isEmptyN = false ∧
      (∀ e, e ∈ t2.entries ↔ e = (k, v) ∨ e ∈ t.entries) := by
  cases t with
  | empty =>
    refine ⟨.leaf k v, ?_, MBNode.leaf_wf hk hv, rfl, ?_⟩
    · unfold MBNode.put
      rw [MBNode.mkLeaf_ok hk hv, exc_bind_ok]
      rfl
    · intro e
      simp [MBNode.entries]
  | leaf k2 v2 =>
    obtain ⟨c, sibs, t2, hdes, hcne, hfold, ht2wf, ht2ne, _, ht2ent⟩ :=
      MBNode.putCore k v hk hv (.leaf k2 v2) hwf rfl hfresh
    refine ⟨t2, ?_, ht2wf, ht2ne, ht2ent⟩
    unfold MBNode.put
    rw [MBNode.mkLeaf_ok hk hv, exc_bind_ok,
      show (MBNode.leaf k v).nodePfx = key2pfx k from rfl, hdes, exc_bind_ok]
    cases c with
    | empty => simp [MBNode.isEmptyN] at hcne
    | leaf k3 v3 => exact hfold
    | inner l3 r3 p3 => exact hfold
  | inner l r p =>
    obtain ⟨c, sibs, t2, hdes, hcne, hfold, ht2wf, ht2ne, _, ht2ent⟩ :=
      MBNode.putCore k v hk hv (.inner l r p) hwf rfl hfresh
    refine ⟨t2, ?_, ht2wf, ht2ne, ht2ent⟩
    unfold MBNode.put
    rw [MBNode.mkLeaf_ok hk hv, exc_bind_ok,
      show (MBNode.leaf k v).nodePfx = key2pfx k from rfl, hdes, exc_bind_ok]
    cases c with
    | empty => simp [MBNode.isEmptyN] at hcne
    | leaf k3 v3 => exact hfold
    | inner l3 r3 p3 => exact hfold

theorem MBNode.descend_mem (t : MBNode) (hwf : t.wf = true) (k : List Nat)
    (v : Nat) (hmem : (k, v) ∈ t.entries) :
    ∃ sibs, t.descend (key2pfx k) = .ok (.leaf k v, sibs) := by
  induction t with
  | empty => simp [MBNode.entries] at hmem
  | leaf k2 v2 =>
    simp only [MBNode.entries, List.mem_singleton, Prod.mk.injEq] at hmem
    obtain ⟨rfl, rfl⟩ := hmem
    exact ⟨[], rfl⟩
  | inner l r p ihl ihr =>
    obtain ⟨hwl, hwr, _, _, hpwf, hpl, hpr⟩ := MBNode.wf_inner hwf
    have hk : validKey k = true :=
      (MBNode.entries_props _ hwf (k, v) hmem).1
    have hpfx : p.bitsList <+: (key2pfx k).bitsList :=
      (MBNode.entries_props _ hwf (k, v) hmem).2.2
    have hguard := (MBNode.inner_guard hwf hk).mpr hpfx
    have hplen : p.length < (key2pfx k).length := by
      have h1 := MBNode.pfx_len_lt hwf
      rw [Bits.bitsList_length] at h1
      rw [MBNode.kp_len hk]
      exact h1
    rcases List.mem_append.mp (by simpa [MBNode.entries] using hmem)
      with hm | hm
    · have hkey : l.nodePfx.bitsList <+: (key2pfx k).bitsList :=
        (MBNode.entries_props l hwl (k, v) hm).2.2
      have hsnoc : (p.bitsList ++ [false]) <+: (key2pfx k).bitsList :=
        hpl.trans hkey
      have hbit : ¬ (key2pfx k).getBit p.length ≠ 0 := by
        rw [Bits.getBit_ne_iff _ _ hplen]
        rw [show p.length = p.bitsList.length from (Bits.bitsList_length p).symm,
          pfx_ext_getD hsnoc]
        simp
      obtain ⟨sibs, hs⟩ := ihl hwl hm
      refine ⟨sibs ++ [r], ?_⟩
      rw [MBNode.descend_inner_true hguard hplen, if_neg hbit, hs]
      rfl
    · have hkey : r.nodePfx.bitsList <+: (key2pfx k).bitsList :=
        (MBNode.entries_props r hwr (k, v) hm).2.2
      have hsnoc : (p.bitsList ++ [true]) <+: (key2pfx k).bitsList :=
        hpr.trans hkey
      have hbit : (key2pfx k).getBit p.length ≠ 0 := by
        rw [Bits.getBit_ne_iff _ _ hplen]
        rw [show p.length = p.bitsList.length from (Bits.bitsList_length p).symm,
          pfx_ext_getD hsnoc]
      obtain ⟨sibs, hs⟩ := ihr hwr hm
      refine ⟨sibs ++ [l], ?_⟩
      rw [MBNode.descend_inner_true hguard hplen, if_pos hbit, hs]
      rfl

theorem Bits.eqb_self (b : Bits) : b.eqb b = true := by
  unfold Bits.eqb
  simp

theorem MBNode.put_existing (t : MBNode) (hwf : t.wf = true) (k : List Nat)
    (v0 v : Nat) (hmem : (k, v0) ∈ t.entries) (hv : v < 2 ^ 64) :
    t.put k v = .error .assertionError := by
  have hk : validKey k = true := (MBNode.entries_props _ hwf (k, v0) hmem).1
  obtain ⟨sibs, hdes⟩ := MBNode.descend_mem t hwf k v0 hmem
  unfold MBNode.put
  rw [MBNode.mkLeaf_ok hk hv, exc_bind_ok,
    show (MBNode.leaf k v).nodePfx = key2pfx k from rfl, hdes, exc_bind_ok]
  show ((MBNode.mkInner (.leaf k v) (.leaf k v0)) >>= fun tip0 =>
    sibs.foldlM (fun tip sib => MBNode.mkInner tip sib) tip0) = _
  rw [show MBNode.mkInner (.leaf k v) (.leaf k v0)
      = Except.error .assertionError from ?_, exc_bind_err]
  unfold MBNode.mkInner
  have hc : (MBNode.leaf k v).nodePfx.eqb (MBNode.leaf k v0).nodePfx = true :=
    Bits.eqb_self (key2pfx k)
  rw [if_pos hc]

def MBNode.putAll (ps : List (List Nat × Nat)) : Except PyErr MBNode :=
  ps.foldlM (fun t e => t.put e.1 e.2) .empty

theorem MBNode.putAll_go (ps : List (List Nat × Nat)) :
    ∀ t : MBNode, t.wf = true →
    (∀ e ∈ ps, validKey e.1 = true ∧ e.2 < 2 ^ 64) →
    (ps.map Prod.fst).Nodup →
    (∀ e ∈ ps, ∀ v0, (e.1, v0) ∉ t.entries) →
    ∃ t2, ps.foldlM (fun t e => t.put e.1 e.2) t = .ok t2 ∧ t2.wf = true ∧
      (∀ e, e ∈ t2.entries ↔ e ∈ ps ∨ e ∈ t.entries) := by
  induction ps with
  | nil =>
    intro t hwf _ _ _
    exact ⟨t, rfl, hwf, fun e => by simp⟩
  | cons hd rest ih =>
    intro t hwf hvalid hnodup hfresh
    obtain ⟨hk, hv⟩ := hvalid hd (List.mem_cons_self _ _)
    obtain ⟨t1, hput, hwf1, _, hent1⟩ :=
      MBNode.put_spec t hwf hd.1 hd.2 hk hv
        (fun v0 => hfresh hd (List.mem_cons_self _ _) v0)
    have hnd : hd.1 ∉ rest.map Prod.fst ∧ (rest.map Prod.fst).Nodup := by
      rw [List.map_cons, List.nodup_cons] at hnodup
      exact hnodup
    obtain ⟨t2, hfold, hwf2, hent2⟩ := ih t1 hwf1
      (fun e he => hvalid e (List.mem_cons_of_mem _ he)) hnd.2
      (by
        intro e he v0 hmemt1
        rcases (hent1 (e.1, v0)).mp hmemt1 with heq | hmemt
        · rw [Prod.mk.injEq] at heq
          exact hnd.1 (heq.1 ▸ List.mem_map_of_mem Prod.fst he)
        · exact hfresh e (List.mem_cons_of_mem _ he) v0 hmemt)
    refine ⟨t2, ?_, hwf2, ?_⟩
    · rw [List.foldlM_cons, hput, exc_bind_ok]
      exact hfold
    · intro e
      rw [hent2 e, List.mem_cons]
      constructor
      · rintro (h | h)
        · exact Or.inl (Or.inr h)
        · rcases (hent1 e).mp h with h1 | h1
          · exact Or.inl (Or.inl h1)
          · exact Or.inr h1
      · rintro ((h | h) | h)
        · exact Or.inr ((hent1 e).mpr (Or.inl h))
        · exact Or.inl h
        · exact Or.inr ((hent1 e).mpr (Or.inr h))

/-- C1: starting from the empty merbinner tree and applying `put` for a
sequence of (key, value) pairs with pairwise-distinct valid keys (32-byte
keys, values below 2^64), every subsequent `__getitem__` on one of those
keys succeeds and returns the stored value. -/
theorem C1_put_then_get (ps : List (List Nat × Nat))
    (hvalid : ∀ e ∈ ps, validKey e.1 = true ∧ e.2 < 2 ^ 64)
    (hnodup : (ps.map Prod.fst).Nodup) :
    ∃ t, MBNode.putAll ps = .ok t ∧
      ∀ e ∈ ps, t.getValue e.1 = .ok e.2 := by
  obtain ⟨t2, hfold, hwf2, hent2⟩ := MBNode.putAll_go ps .empty rfl hvalid hnodup
    (by intro e _ v0 h; simp [MBNode.entries] at h)
  refine ⟨t2, hfold, ?_⟩
  intro e he
  have hmem : (e.1, e.2) ∈ t2.entries := (hent2 (e.1, e.2)).mpr (Or.inl (by simpa using he))
  exact MBNode.getValue_mem t2 hwf2 e.1 e.2 hmem

theorem C1_put_then_get_witness :
    ∃ t, MBNode.putAll
        [(List.replicate 32 0, 5), (0x80 :: List.replicate 31 0, 7)] = .ok t ∧
      ∀ e ∈ [(List.replicate 32 0, 5), (0x80 :: List.replicate 31 0, 7)],
        t.getValue e.1 = .ok e.2 :=
  C1_put_then_get _ (by decide) (by decide)

/-- C9: putting a key that the tree already contains raises AssertionError:
the descent terminates at the existing leaf for that key, and `InnerNode.__new__`
asserts that the two children's prefixes differ, which fails since both leaves
carry identical key prefixes; values cannot be updated in place. -/
theorem C9_put_existing_key_asserts (t : MBNode) (hwf : t.wf = true)
    (k : List Nat) (v0 v : Nat) (hmem : (k, v0) ∈ t.entries)
    (hv : v < 2 ^ 64) : t.put k v = .error .assertionError :=
  MBNode.put_existing t hwf k v0 v hmem hv

theorem C9_put_existing_key_asserts_witness :
    (MBNode.leaf (List.replicate 32 0) 5).put (List.replicate 32 0) 7
      = .error .assertionError :=
  C9_put_existing_key_asserts (MBNode.leaf (List.replicate 32 0) 5) (by decide)
    (List.replicate 32 0) 5 7 (by decide) (by decide)

theorem MBNode.size_pos (t : MBNode) : 1 ≤ t.size := by
  cases t <;> simp [MBNode.size]

theorem prefix_comparable {zs ws xs : List Bool} (h1 : zs <+: xs)
    (h2 : ws <+: xs) : zs <+: ws ∨ ws <+: zs := by
  obtain ⟨t1, he1⟩ := h1
  obtain ⟨t2, he2⟩ := h2
  rw [← he2] at he1
  rcases List.append_eq_append_iff.mp he1 with ⟨a, ha, _⟩ | ⟨c, hc, _⟩
  · exact Or.inl ⟨a, ha.symm⟩
  · exact Or.inr ⟨c, hc.symm⟩

theorem MBNode.entries_key_unique (t : MBNode) (hwf : t.wf = true)
    {k : List Nat} {v1 v2 : Nat} (h1 : (k, v1) ∈ t.entries)
    (h2 : (k, v2) ∈ t.entries) : v1 = v2 := by
  induction t with
  | empty => simp [MBNode.entries] at h1
  | leaf k0 v0 =>
    simp only [MBNode.entries, List.mem_singleton, Prod.mk.injEq] at h1 h2
    rw [h1.2, h2.2]
  | inner l r p ihl ihr =>
    obtain ⟨hwl, hwr, _, _, _, hpl, hpr⟩ := MBNode.wf_inner hwf
    simp only [MBNode.entries, List.mem_append] at h1 h2
    rcases h1 with h1 | h1 <;> rcases h2 with h2 | h2
    · exact ihl hwl h1 h2
    · exfalso
      have ha := pfx_ext_getD
        (hpl.trans (MBNode.entries_props l hwl (k, v1) h1).2.2)
      have hb := pfx_ext_getD
        (hpr.trans (MBNode.entries_props r hwr (k, v2) h2).2.2)
      rw [ha] at hb
      exact absurd hb (by simp)
    · exfalso
      have ha := pfx_ext_getD
        (hpl.trans (MBNode.entries_props l hwl (k, v2) h2).2.2)
      have hb := pfx_ext_getD
        (hpr.trans (MBNode.entries_props r hwr (k, v1) h1).2.2)
      rw [ha] at hb
      exact absurd hb (by simp)
    · exact ihr hwr h1 h2

theorem MBNode.subset_child {l2 r2 : MBNode} {p2 : Bits}
    (hwo : (MBNode.inner l2 r2 p2).wf = true) (b : Bool) (s : MBNode)
    (hext : ∀ e ∈ s.entries,
      (p2.bitsList ++ [b]) <+: (key2pfx e.1).bitsList) :
    (∀ e ∈ s.entries, e ∈ (MBNode.inner l2 r2 p2).entries) ↔
      (∀ e ∈ s.entries, e ∈ (cond b r2 l2).entries) := by
  obtain ⟨hwl2, hwr2, _, _, _, hpl2, hpr2⟩ := MBNode.wf_inner hwo
  constructor
  · intro hsub e he
    have hin := hsub e he
    simp only [MBNode.entries, List.mem_append] at hin
    have hkb := pfx_ext_getD (hext e he)
    rcases hin with h | h
    · have hkf := pfx_ext_getD
        (hpl2.trans (MBNode.entries_props l2 hwl2 e h).2.2)
      cases b with
      | false => exact h
      | true =>
        rw [hkf] at hkb
        exact absurd hkb (by simp)
    · have hkt := pfx_ext_getD
        (hpr2.trans (MBNode.entries_props r2 hwr2 e h).2.2)
      cases b with
      | false =>
        rw [hkt] at hkb
        exact absurd hkb (by simp)
      | true => exact h
  · intro hsub e he
    have hin := hsub e he
    simp only [MBNode.entries, List.mem_append]
    cases b with
    | false => exact Or.inl hin
    | true => exact Or.inr hin

theorem MBNode.subset_split {l r l2 r2 : MBNode} {p p2 : Bits}
    (hws : (MBNode.inner l r p).wf = true)
    (hwo : (MBNode.inner l2 r2 p2).wf = true)
    (hbits : p.bitsList = p2.bitsList) :
    (∀ e ∈ (MBNode.inner l r p).entries,
        e ∈ (MBNode.inner l2 r2 p2).entries) ↔
      ((∀ e ∈ l.entries, e ∈ l2.entries) ∧
        (∀ e ∈ r.entries, e ∈ r2.entries)) := by
  obtain ⟨hwl, hwr, _, _, _, hpl, hpr⟩ := MBNode.wf_inner hws
  constructor
  · intro hsub
    constructor
    · intro e he
      have hsubl : ∀ e ∈ l.entries, e ∈ (MBNode.inner l2 r2 p2).entries := by
        intro e2 he2
        exact hsub e2 (by
          simp only [MBNode.entries, List.mem_append]
          exact Or.inl he2)
      have hext : ∀ e ∈ l.entries,
          (p2.bitsList ++ [false]) <+: (key2pfx e.1).bitsList := by
        intro e2 he2
        rw [← hbits]
        exact hpl.trans (MBNode.entries_props l hwl e2 he2).2.2
      exact (MBNode.subset_child hwo false l hext).mp hsubl e he
    · intro e he
      have hsubr : ∀ e ∈ r.entries, e ∈ (MBNode.inner l2 r2 p2).entries := by
        intro e2 he2
        exact hsub e2 (by
          simp only [MBNode.entries, List.mem_append]
          exact Or.inr he2)
      have hext : ∀ e ∈ r.entries,
          (p2.bitsList ++ [true]) <+: (key2pfx e.1).bitsList := by
        intro e2 he2
        rw [← hbits]
        exact hpr.trans (MBNode.entries_props r hwr e2 he2).2.2
      exact (MBNode.subset_child hwo true r hext).mp hsubr e he
  · rintro ⟨hl, hr⟩ e he
    simp only [MBNode.entries, List.mem_append] at he ⊢
    rcases he with he | he
    · exact Or.inl (hl e he)
    · exact Or.inr (hr e he)

theorem MBNode.isubAux_empty (o : MBNode) :
    MBNode.isubAux .empty o = .ok true := by
  rw [MBNode.isubAux]

theorem MBNode.isubAux_leaf (k : List Nat) (v : Nat) (o : MBNode) :
    MBNode.isubAux (.leaf k v) o =
    (match o.getValue k with
     | .ok ov => .ok (v == ov)
     | .error .keyError => .ok false
     | .error e => .error e) := by
  rw [MBNode.isubAux]

theorem MBNode.isubAux_inner_inner (l r : MBNode) (p : Bits)
    (l2 r2 : MBNode) (p2 : Bits) :
    MBNode.isubAux (.inner l r p) (.inner l2 r2 p2) =
    (if MBNode.nodeEq (.inner l r p) (.inner l2 r2 p2) then .ok true
    else if p.eqb p2 then
        (if MBNode.nodeEq l l2 && MBNode.nodeEq r r2 then .error .assertionError
        else do
          let b1 ← MBNode.issubset l l2
          if b1 then MBNode.issubset r r2 else .ok false)
    else if p.startswith p2 then
      if ¬ p2.length < p.length then .error .assertionError
      else do
        let bit ← p.getItem (p2.length : Int)
        if bit ≠ 0 then MBNode.isubAux (.inner l r p) r2
        else MBNode.isubAux (.inner l r p) l2
    else .ok false) := by
  rw [MBNode.isubAux]
  simp only [MBNode.nodePfx]

theorem MBNode.isubAux_inner_leaf (l r : MBNode) (p : Bits) (k2 : List Nat)
    (v2 : Nat) :
    MBNode.isubAux (.inner l r p) (.leaf k2 v2) =
    (if MBNode.nodeEq (.inner l r p) (.leaf k2 v2) then .ok true
    else if p.eqb (key2pfx k2) then .error .assertionError
    else if p.startswith (key2pfx k2) then
      if ¬ (key2pfx k2).length < p.length then .error .assertionError
      else do
        let _ ← p.getItem ((key2pfx k2).length : Int)
        (.error .attributeError : Except PyErr Bool)
    else .ok false) := by
  rw [MBNode.isubAux]
  simp only [MBNode.nodePfx]
  intro l2 r2 pfx h
  exact MBNode.noConfusion h

theorem MBNode.issubset_unfold (s o : MBNode) : MBNode.issubset s o =
    (if MBNode.nodeEq s o then .ok true
     else if MBNode.nodeEq o .empty then .ok false
     else MBNode.isubAux s o) := by
  rw [MBNode.issubset]

theorem MBNode.isub_main : ∀ n : Nat, ∀ s o : MBNode, s.size + o.size ≤ n →
    s.wf = true → o.wf = true →
    (o.isEmptyN = false →
      ∃ b, MBNode.isubAux s o = .ok b ∧
        (b = true ↔ ∀ e ∈ s.entries, e ∈ o.entries)) ∧
    (∃ b, MBNode.issubset s o = .ok b ∧
      (b = true ↔ ∀ e ∈ s.entries, e ∈ o.entries)) := by
  intro n
  induction n with
  | zero =>
    intro s o hsz _ _
    have h1 := MBNode.size_pos s
    have h2 := MBNode.size_pos o
    omega
  | succ n ih =>
    intro s o hsz hws hwo
    have hB : o.isEmptyN = false →
        ∃ b, MBNode.isubAux s o = .ok b ∧
          (b = true ↔ ∀ e ∈ s.entries, e ∈ o.entries) := by
      intro hne
      cases s with
      | empty =>
        refine ⟨true, MBNode.isubAux_empty o, ?_⟩
        simp [MBNode.entries]
      | leaf k v =>
        have hk : validKey k = true := by
          simp only [MBNode.wf, Bool.and_eq_true, decide_eq_true_eq] at hws
          exact hws.1
        rw [MBNode.isubAux_leaf]
        by_cases hm : ∃ w, (k, w) ∈ o.entries
        · obtain ⟨w, hw⟩ := hm
          rw [MBNode.getValue_mem o hwo k w hw]
          refine ⟨v == w, rfl, ?_⟩
          constructor
          · intro hb e he
            simp only [MBNode.entries, List.mem_singleton] at he
            subst he
            rw [show v = w from by simpa using hb]
            exact hw
          · intro hall
            have h1 : (k, v) ∈ o.entries :=
              hall (k, v) (by simp [MBNode.entries])
            have h2 := MBNode.entries_key_unique o hwo h1 hw
            simp [h2]
        · push_neg at hm
          rw [MBNode.getValue_notmem o hwo k hk hm]
          refine ⟨false, rfl, ?_⟩
          constructor
          · intro hb
            exact absurd hb (by simp)
          · intro hall
            exact absurd (hall (k, v) (by simp [MBNode.entries])) (hm v)
      | inner l r p =>
        obtain ⟨hwl, hwr, hlne, hrne, hpwf, hpl, hpr⟩ := MBNode.wf_inner hws
        have hplt : p.bitsList.length < 256 := MBNode.pfx_len_lt hws
        cases o with
        | empty => simp [MBNode.isEmptyN] at hne
        | leaf k2 v2 =>
          have hk2 : validKey k2 = true := by
            simp only [MBNode.wf, Bool.and_eq_true, decide_eq_true_eq] at hwo
            exact hwo.1
          rw [MBNode.isubAux_inner_leaf]
          have hEq : MBNode.nodeEq (.inner l r p) (.leaf k2 v2) = false := by
            rw [MBNode.nodeEq, beq_eq_false_iff_ne]
            simp [MBNode.hashE]
          have hpe : p.eqb (key2pfx k2) = false := by
            by_contra hc
            rw [Bool.not_eq_false] at hc
            have hbl := (Bits.eqb_iff_bitsList p (key2pfx k2) hpwf
              (key2pfx_wfB k2 hk2)).mp hc
            have hlen := congrArg List.length hbl
            rw [MBNode.key_bits_len hk2] at hlen
            omega
          have hswf : p.startswith (key2pfx k2) = false := by
            by_contra hc
            rw [Bool.not_eq_false] at hc
            have hp2 := (Bits.startswith_iff p (key2pfx k2) hpwf
              (key2pfx_wfB k2 hk2)).mp hc
            have hlen := hp2.length_le
            rw [MBNode.key_bits_len hk2] at hlen
            omega
          rw [hEq, if_neg (by simp), hpe, if_neg (by simp), hswf,
            if_neg (by simp)]
          refine ⟨false, rfl, ?_⟩
          constructor
          · intro hb
            exact absurd hb (by simp)
          · intro hall
            exfalso
            obtain ⟨e1, he1⟩ := List.exists_mem_of_ne_nil _
              (MBNode.entries_ne_nil l hwl hlne)
            obtain ⟨e2, he2⟩ := List.exists_mem_of_ne_nil _
              (MBNode.entries_ne_nil r hwr hrne)
            have h1o : e1 ∈ (MBNode.leaf k2 v2).entries := hall e1 (by
              simp only [MBNode.entries, List.mem_append]
              exact Or.inl he1)
            have h2o : e2 ∈ (MBNode.leaf k2 v2).entries := hall e2 (by
              simp only [MBNode.entries, List.mem_append]
              exact Or.inr he2)
            simp only [MBNode.entries, List.mem_singleton] at h1o h2o
            have hf1 := pfx_ext_getD
              (hpl.trans (MBNode.entries_props l hwl e1 he1).2.2)
            have hf2 := pfx_ext_getD
              (hpr.trans (MBNode.entries_props r hwr e2 he2).2.2)
            rw [h1o] at hf1
            rw [h2o] at hf2
            rw [hf1] at hf2
            exact Bool.noConfusion hf2
        | inner l2 r2 p2 =>
          obtain ⟨hwl2, hwr2, hl2ne, hr2ne, hp2wf, hpl2, hpr2⟩ :=
            MBNode.wf_inner hwo
          rw [MBNode.isubAux_inner_inner]
          cases hEq : MBNode.nodeEq (.inner l r p) (.inner l2 r2 p2) with
          | true =>
            rw [if_pos rfl]
            refine ⟨true, rfl, ?_⟩
            have hent := MBNode.nodeEq_entries hEq
            constructor
            · intro _ e he
              rw [← hent]
              exact he
            · intro _
              rfl
          | false =>
            rw [if_neg (by simp)]
            cases hpe : p.eqb p2 with
            | true =>
              rw [if_pos rfl]
              have hbits : p.bitsList = p2.bitsList :=
                (Bits.eqb_iff_bitsList p p2 hpwf hp2wf).mp hpe
              have hgg : (MBNode.nodeEq l l2 && MBNode.nodeEq r r2) = false := by
                by_contra hc
                rw [Bool.not_eq_false, Bool.and_eq_true] at hc
                have h1 : l.hashE = l2.hashE := by
                  have := hc.1
                  rwa [MBNode.nodeEq, beq_iff_eq] at this
                have h2 : r.hashE = r2.hashE := by
                  have := hc.2
                  rwa [MBNode.nodeEq, beq_iff_eq] at this
                have hcc : MBNode.nodeEq (.inner l r p) (.inner l2 r2 p2)
                    = true := by
                  rw [MBNode.nodeEq, beq_iff_eq]
                  show MBHash.innerH p.bitsList l.hashE r.hashE
                    = MBHash.innerH p2.bitsList l2.hashE r2.hashE
                  rw [hbits, h1, h2]
                rw [hcc] at hEq
                exact Bool.noConfusion hEq
              rw [hgg, if_neg (by simp)]
              have hszl : l.size + l2.size ≤ n := by
                have hr1 := MBNode.size_pos r
                have hr2s := MBNode.size_pos r2
                simp only [MBNode.size] at hsz
                omega
              obtain ⟨b1, hb1, hb1iff⟩ := (ih l l2 hszl hwl hwl2).2
              rw [hb1, exc_bind_ok]
              have hsplit := MBNode.subset_split hws hwo hbits
              cases b1 with
              | false =>
                rw [if_neg (by simp)]
                refine ⟨false, rfl, ?_⟩
                constructor
                · intro hb
                  exact absurd hb (by simp)
                · intro hall
                  exact absurd (hb1iff.mpr (hsplit.mp hall).1) (by simp)
              | true =>
                rw [if_pos rfl]
                have hszr : r.size + r2.size ≤ n := by
                  have hl1 := MBNode.size_pos l
                  have hl2s := MBNode.size_pos l2
                  simp only [MBNode.size] at hsz
                  omega
                obtain ⟨b2, hb2, hb2iff⟩ := (ih r r2 hszr hwr hwr2).2
                rw [hb2]
                refine ⟨b2, rfl, ?_⟩
                constructor
                · intro hb
                  exact hsplit.mpr ⟨hb1iff.mp rfl, hb2iff.mp hb⟩
                · intro hall
                  exact hb2iff.mpr (hsplit.mp hall).2
            | false =>
              rw [if_neg (by simp)]
              cases hsw : p.startswith p2 with
              | false =>
                rw [if_neg (by simp)]
                refine ⟨false, rfl, ?_⟩
                constructor
                · intro hb
                  exact absurd hb (by simp)
                · intro hall
                  exfalso
                  obtain ⟨e1, he1⟩ := List.exists_mem_of_ne_nil _
                    (MBNode.entries_ne_nil l hwl hlne)
                  obtain ⟨e2, he2⟩ := List.exists_mem_of_ne_nil _
                    (MBNode.entries_ne_nil r hwr hrne)
                  have h1o : e1 ∈ (MBNode.inner l2 r2 p2).entries :=
                    hall e1 (by
                      simp only [MBNode.entries, List.mem_append]
                      exact Or.inl he1)
                  have h2o : e2 ∈ (MBNode.inner l2 r2 p2).entries :=
                    hall e2 (by
                      simp only [MBNode.entries, List.mem_append]
                      exact Or.inr he2)
                  have hk1 : (p.bitsList ++ [false]) <+:
                      (key2pfx e1.1).bitsList :=
                    hpl.trans (MBNode.entries_props l hwl e1 he1).2.2
                  have hk2v : (p.bitsList ++ [true]) <+:
                      (key2pfx e2.1).bitsList :=
                    hpr.trans (MBNode.entries_props r hwr e2 he2).2.2
                  have ht1 : p2.bitsList <+: (key2pfx e1.1).bitsList :=
                    (MBNode.entries_props _ hwo e1 h1o).2.2
                  have ht2 : p2.bitsList <+: (key2pfx e2.1).bitsList :=
                    (MBNode.entries_props _ hwo e2 h2o).2.2
                  rcases prefix_comparable ht1 (pfx_drop_snoc hk1) with hc | hc
                  · have hsw2 := (Bits.startswith_iff p p2 hpwf hp2wf).mpr hc
                    rw [hsw2] at hsw
                    exact Bool.noConfusion hsw
                  · by_cases hlen : p.bitsList.length = p2.bitsList.length
                    · have hbeq := hc.eq_of_length hlen
                      have hee := (Bits.eqb_iff_bitsList p p2 hpwf hp2wf).mpr hbeq
                      rw [hee] at hpe
                      exact Bool.noConfusion hpe
                    · have hlt : p.bitsList.length < p2.bitsList.length :=
                        lt_of_le_of_ne hc.length_le hlen
                      have hsn : (p.bitsList ++
                          [p2.bitsList.getD p.bitsList.length false]) <+:
                          p2.bitsList := pfx_snoc_of_getD hc hlt rfl
                      have hb1x := pfx_ext_getD (hsn.trans ht1)
                      have hb2x := pfx_ext_getD (hsn.trans ht2)
                      rw [pfx_ext_getD hk1] at hb1x
                      rw [pfx_ext_getD hk2v] at hb2x
                      rw [← hb1x] at hb2x
                      exact Bool.noConfusion hb2x
              | true =>
                have hswb : p2.bitsList <+: p.bitsList :=
                  (Bits.startswith_iff p p2 hpwf hp2wf).mp hsw
                have hlt : p2.bitsList.length < p.bitsList.length := by
                  rcases lt_or_eq_of_le hswb.length_le with h | h
                  · exact h
                  · exfalso
                    have hbeq := hswb.eq_of_length h
                    have hee := (Bits.eqb_iff_bitsList p p2 hpwf
                      hp2wf).mpr hbeq.symm
                    rw [hee] at hpe
                    exact Bool.noConfusion hpe
                have hltL : p2.length < p.length := by
                  rw [← Bits.bitsList_length p, ← Bits.bitsList_length p2]
                  exact hlt
                rw [if_pos rfl, if_neg (not_not_intro hltL),
                  Bits.getItem_ok p p2.length hltL, exc_bind_ok]
                cases hbbv : p.bitsList.getD p2.bitsList.length false with
                | true =>
                  have hsnoc : (p2.bitsList ++ [true]) <+: p.bitsList :=
                    pfx_snoc_of_getD hswb hlt hbbv
                  have hbbv2 : p.bitsList.getD p2.length false = true := by
                    rw [← Bits.bitsList_length p2]
                    exact hbbv
                  have hbit : p.getBit p2.length ≠ 0 :=
                    (Bits.getBit_ne_iff p p2.length hltL).mpr hbbv2
                  rw [if_pos hbit]
                  have hszr : (MBNode.inner l r p).size + r2.size ≤ n := by
                    have hl2s := MBNode.size_pos l2
                    simp only [MBNode.size] at hsz ⊢
                    omega
                  obtain ⟨b2, hb2, hb2iff⟩ :=
                    (ih (.inner l r p) r2 hszr hws hwr2).1 hr2ne
                  rw [hb2]
                  refine ⟨b2, rfl, ?_⟩
                  have hext : ∀ e ∈ (MBNode.inner l r p).entries,
                      (p2.bitsList ++ [true]) <+: (key2pfx e.1).bitsList := by
                    intro e he
                    exact hsnoc.trans (MBNode.entries_props _ hws e he).2.2
                  have hchild := MBNode.subset_child hwo true
                    (.inner l r p) hext
                  constructor
                  · intro hb
                    exact hchild.mpr (hb2iff.mp hb)
                  · intro hall
                    exact hb2iff.mpr (hchild.mp hall)
                | false =>
                  have hsnoc : (p2.bitsList ++ [false]) <+: p.bitsList :=
                    pfx_snoc_of_getD hswb hlt hbbv
                  have hbit : ¬ p.getBit p2.length ≠ 0 := by
                    intro hcx
                    have hgx := (Bits.getBit_ne_iff p p2.length hltL).mp hcx
                    rw [← Bits.bitsList_length p2] at hgx
                    rw [hbbv] at hgx
                    exact Bool.noConfusion hgx
                  rw [if_neg hbit]
                  have hszl2 : (MBNode.inner l r p).size + l2.size ≤ n := by
                    have hr2s := MBNode.size_pos r2
                    simp only [MBNode.size] at hsz ⊢
                    omega
                  obtain ⟨b2, hb2, hb2iff⟩ :=
                    (ih (.inner l r p) l2 hszl2 hws hwl2).1 hl2ne
                  rw [hb2]
                  refine ⟨b2, rfl, ?_⟩
                  have hext : ∀ e ∈ (MBNode.inner l r p).entries,
                      (p2.bitsList ++ [false]) <+: (key2pfx e.1).bitsList := by
                    intro e he
                    exact hsnoc.trans (MBNode.entries_props _ hws e he).2.2
                  have hchild := MBNode.subset_child hwo false
                    (.inner l r p) hext
                  constructor
                  · intro hb
                    exact hchild.mpr (hb2iff.mp hb)
                  · intro hall
                    exact hb2iff.mpr (hchild.mp hall)
    refine ⟨hB, ?_⟩
    rw [MBNode.issubset_unfold]
    cases hEq : MBNode.nodeEq s o with
    | true =>
      rw [if_pos rfl]
      refine ⟨true, rfl, ?_⟩
      have hent := MBNode.nodeEq_entries hEq
      constructor
      · intro _ e he
        rw [← hent]
        exact he
      · intro _
        rfl
    | false =>
      rw [if_neg (by simp)]
      cases hOe : MBNode.nodeEq o .empty with
      | true =>
        rw [if_pos rfl]
        have hoe : o = .empty := (MBNode.nodeEq_empty_iff o).mp hOe
        subst hoe
        have hsne : s.isEmptyN = false := by
          cases s with
          | empty => simp [MBNode.nodeEq, MBNode.hashE] at hEq
          | leaf k v => rfl
          | inner l r p => rfl
        obtain ⟨e0, he0⟩ := List.exists_mem_of_ne_nil _
          (MBNode.entries_ne_nil s hws hsne)
        refine ⟨false, rfl, ?_⟩
        constructor
        · intro hb
          exact absurd hb (by simp)
        · intro hall
          exact absurd (hall e0 he0) (by simp [MBNode.entries])
      | false =>
        rw [if_neg (by simp)]
        have hone : o.isEmptyN = false := by
          cases o with
          | empty => simp [MBNode.nodeEq, MBNode.hashE] at hOe
          | leaf _ _ => rfl
          | inner _ _ _ => rfl
        exact hB hone

/-- C4: for well-formed (un-pruned, reachable) merbinner trees `s` and `o`,
`s.issubset(o)` returns normally, and returns `True` exactly when every
key:value pair of `s` appears, with equal value, among the entries of `o`. -/
theorem C4_issubset_iff_subset (s o : MBNode) (hs : s.wf = true)
    (ho : o.wf = true) :
    ∃ b, MBNode.issubset s o = .ok b ∧
      (b = true ↔ ∀ e ∈ s.entries, e ∈ o.entries) :=
  (MBNode.isub_main (s.size + o.size) s o (le_refl _) hs ho).2

theorem C4_issubset_iff_subset_witness :
    ∃ b, MBNode.issubset (MBNode.leaf (List.replicate 32 0) 5)
        (MBNode.leaf (List.replicate 32 0) 5) = .ok b ∧
      (b = true ↔ ∀ e ∈ (MBNode.leaf (List.replicate 32 0) 5).entries,
        e ∈ (MBNode.leaf (List.replicate 32 0) 5).entries) :=
  C4_issubset_iff_subset (MBNode.leaf (List.replicate 32 0) 5)
    (MBNode.leaf (List.replicate 32 0) 5) (by decide) (by decide)

/-! ### The generic `Proof` class: pruning, hashing, equality (`proof.py`) -/

/-- State of a `Proof` instance as reachable through the public API, over an
abstract type `F` of field tuples: `mk fields` is a freshly constructed
instance with every serialized attribute present (`__orig_instance = None`),
`pruned orig` is the result of `orig.prune()` (a blank instance whose
`__orig_instance` is `orig`), and `deserPruned d` is a fully-pruned instance
produced by `ctx_deserialize` from the wire, holding only the raw 32-byte
`data_hash` `d`. -/
inductive PNode (F : Type) where
  | mk (fields : F)
  | pruned (orig : PNode F)
  | deserPruned (dataHash : List Nat)
deriving DecidableEq

/-- Value of the `data_hash` attribute.  `calc_data_hash` hashes the
serialized attributes with SHA256, modelled as the free constructor
`fieldsHash` (collision-free); a fully-pruned deserialized instance carries
the raw digest bytes read from the wire (`raw`); a pruned instance delegates
to `__orig_instance.data_hash`. -/
inductive PDigest (F : Type) where
  | raw (bytes : List Nat)
  | fieldsHash (fields : F)
deriving DecidableEq

/-- Value of the `hash` attribute: `calc_hash` is
`HASHTAG(data_hash).digest()`, a fixed-tag SHA256 modelled as the free
constructor `tagged` over the data hash. -/
inductive PTagHash (F : Type) where
  | tagged (d : PDigest F)
deriving DecidableEq

/-- `Proof.calc_data_hash` / the lazy `data_hash` attribute. -/
def PNode.dataHashV {F : Type} : PNode F → PDigest F
  | .mk fs => .fieldsHash fs
  | .pruned orig => orig.dataHashV
  | .deserPruned d => .raw d

/-- `Proof.calc_hash` / the lazy `hash` attribute: a pruned instance returns
`__orig_instance.hash`; otherwise `HASHTAG(self.data_hash).digest()`. -/
def PNode.hashV {F : Type} : PNode F → PTagHash F
  | .pruned orig => orig.hashV
  | .mk fs => .tagged (PNode.dataHashV (.mk fs))
  | .deserPruned d => .tagged (PNode.dataHashV (.deserPruned d))

/-- `Proof.prune`: a blank instance holding a reference to the original. -/
def PNode.prune {F : Type} (n : PNode F) : PNode F := .pruned n

/-- `Proof.__eq__`: defined for `Proof` operands as `self.hash == other.hash`. -/
def PNode.peq {F : Type} [DecidableEq F] (a b : PNode F) : Bool :=
  a.hashV == b.hashV

/-- C2: for every proof node with all of its fields present, the hash of the
pruned copy equals the hash of the original node — and in fact pruning never
changes the committed hash of any instance, since `calc_hash` on a pruned
instance delegates to `__orig_instance.hash`. -/
theorem C2_prune_preserves_hash {F : Type} (fs : F) :
    (PNode.prune (PNode.mk fs)).hashV = (PNode.mk fs).hashV ∧
      ∀ n : PNode F, (PNode.prune n).hashV = n.hashV :=
  ⟨rfl, fun _ => rfl⟩

/-- C10: proof equality is hash equality — `a == b` returns `True` exactly
when the committed hashes coincide, and every node compares equal to its own
pruned copy, so pruning is invisible to `==`. -/
theorem C10_eq_iff_hash_eq {F : Type} [DecidableEq F] (a b n : PNode F) :
    (PNode.peq a b = true ↔ a.hashV = b.hashV) ∧
      PNode.peq (PNode.prune n) n = true := by
  constructor
  · rw [PNode.peq, beq_iff_eq]
  · rw [PNode.peq, beq_iff_eq]
    rfl

/-! ### Byte-level serialization primitives (`serialize.py`) -/

/-- `StreamSerializationContext.write_varuint`: unsigned little-endian
base-128 (LEB128). -/
def writeVaruint (value : Nat) : List Nat :=
  if value = 0 then [0]
  else if value ≤ 0x7f then [value &&& 0x7f]
  else (value &&& 0x7f ||| 0x80) :: writeVaruint (value >>> 7)
termination_by value
decreasing_by
  rw [Nat.shiftRight_eq_div_pow]
  exact Nat.div_lt_self (by omega) (by norm_num)

/-- `StreamDeserializationContext.read_varuint` over a byte list, with the
running accumulator and shift.  On exhausted input `fd_read` raises the
undefined name `DataTruncatedError`, i.e. a `NameError`. -/
def readVaruint : List Nat → Nat → Nat → Except PyErr (Nat × List Nat)
  | [], _, _ => .error .nameError
  | b :: rest, value, shift =>
    if b &&& 0x80 = 0 then .ok (value ||| ((b &&& 0x7f) <<< shift), rest)
    else readVaruint rest (value ||| ((b &&& 0x7f) <<< shift)) (shift + 7)

/-- `StreamDeserializationContext.read_bytes` with an explicit length:
`fd_read(l)` returning the bytes and the remaining input, raising the
undefined name `DataTruncatedError` (a `NameError`) when the stream is
short. -/
def readBytes (input : List Nat) (n : Nat) :
    Except PyErr (List Nat × List Nat) :=
  if n ≤ input.length then .ok (input.take n, input.drop n)
  else .error .nameError

/-- Modelled from the spec: `write_bool` is one of the byte-level wire
primitives the spec treats as an external collaborator (§6: every node's
serialized form begins with a boolean flag).  The repository's test vectors
pin `False` to the single byte `0x00`; `True` is one distinguished nonzero
byte, conventionally `0xff`. -/
def writeBool (b : Bool) : List Nat :=
  if b then [0xff] else [0x00]

theorem and127_of_lt {L : Nat} (h : L < 128) : L &&& 127 = L := by
  apply Nat.eq_of_testBit_eq
  intro i
  rw [Nat.testBit_and, show (127 : Nat) = 2 ^ 7 - 1 from rfl,
    Nat.testBit_two_pow_sub_one]
  by_cases hi : i < 7
  · simp [hi]
  · have hz : L.testBit i = false := by
      apply Nat.testBit_eq_false_of_lt
      calc L < 128 := h
        _ = 2 ^ 7 := rfl
        _ ≤ 2 ^ i := Nat.pow_le_pow_right (by omega) (by omega)
    simp [hz]

theorem and128_of_lt {L : Nat} (h : L < 128) : L &&& 128 = 0 := by
  rw [show (128 : Nat) = 2 ^ 7 from rfl, Nat.and_two_pow]
  have hz : L.testBit 7 = false :=
    Nat.testBit_eq_false_of_lt (by simpa using h)
  rw [hz]
  rfl

theorem or128_and127 (L : Nat) : (L &&& 127 ||| 128) &&& 127 = L &&& 127 := by
  apply Nat.eq_of_testBit_eq
  intro i
  simp only [Nat.testBit_and, Nat.testBit_or]
  rw [show (127 : Nat) = 2 ^ 7 - 1 from rfl, Nat.testBit_two_pow_sub_one,
    show (128 : Nat) = 2 ^ 7 from rfl, Nat.testBit_two_pow]
  by_cases hi : i < 7
  · have h7 : ¬ (7 = i) := by omega
    simp [hi, h7]
  · simp [hi]

theorem or128_and128 (L : Nat) : (L &&& 127 ||| 128) &&& 128 = 128 := by
  apply Nat.eq_of_testBit_eq
  intro i
  simp only [Nat.testBit_and, Nat.testBit_or]
  rw [show (127 : Nat) = 2 ^ 7 - 1 from rfl, Nat.testBit_two_pow_sub_one,
    show (128 : Nat) = 2 ^ 7 from rfl, Nat.testBit_two_pow]
  by_cases hi : 7 = i
  · subst hi
    simp
  · simp [hi]

theorem split7 (L s : Nat) :
    ((L &&& 127) <<< s) ||| ((L >>> 7) <<< (s + 7)) = L <<< s := by
  apply Nat.eq_of_testBit_eq
  intro i
  simp only [Nat.testBit_or, Nat.testBit_shiftLeft, Nat.testBit_and,
    Nat.testBit_shiftRight]
  rw [show (127 : Nat) = 2 ^ 7 - 1 from rfl, Nat.testBit_two_pow_sub_one]
  by_cases h1 : s ≤ i
  · by_cases h2 : i - s < 7
    · have h3 : ¬ (s + 7 ≤ i) := by omega
      simp [h1, h2, h3]
    · have h3 : s + 7 ≤ i := by omega
      have h4 : 7 + (i - (s + 7)) = i - s := by omega
      simp [h1, h2, h3, h4]
  · have h3 : ¬ (s + 7 ≤ i) := by omega
    simp [h1, h3]

theorem readVaruint_write (L : Nat) : ∀ (value shift : Nat) (rest : List Nat),
    readVaruint (writeVaruint L ++ rest) value shift
      = .ok (value ||| (L <<< shift), rest) := by
  induction L using writeVaruint.induct with
  | case1 =>
    intro value shift rest
    rw [writeVaruint, if_pos rfl]
    show readVaruint (0 :: rest) value shift = _
    rw [readVaruint, if_pos (show (0 : Nat) &&& 128 = 0 from rfl)]
    simp [Nat.zero_shiftLeft]
  | case2 L hz hle =>
    intro value shift rest
    rw [writeVaruint, if_neg hz, if_pos hle]
    show readVaruint ((L &&& 127) :: rest) value shift = _
    rw [and127_of_lt (by omega)] at *
    rw [readVaruint, if_pos (and128_of_lt (by omega)),
      and127_of_lt (by omega)]
  | case3 L hz hgt ih =>
    intro value shift rest
    rw [writeVaruint, if_neg hz, if_neg hgt]
    show readVaruint ((L &&& 127 ||| 128) :: (writeVaruint (L >>> 7) ++ rest))
      value shift = _
    rw [readVaruint, if_neg (by rw [or128_and128]; omega), or128_and127, ih]
    rw [Nat.or_assoc, split7]

theorem writeVaruint_zero : writeVaruint 0 = [0] := by
  rw [writeVaruint]
  rfl

theorem writeVaruint_small {v : Nat} (h1 : v ≠ 0) (h2 : v ≤ 127) :
    writeVaruint v = [v] := by
  rw [writeVaruint, if_neg h1, if_pos h2, and127_of_lt (by omega)]

/-- `BitsSerializer.ctx_serialize`: the bit length as a varuint, the
full-width bytes, then — only when the length is not a byte multiple — the
masked tail byte. -/
def bitsSer (b : Bits) : List Nat :=
  writeVaruint b.length ++ b.fullWidthPfx ++
    (if b.length % 8 ≠ 0 then [b.tailBits] else [])

/-- `BitsSerializer.ctx_deserialize`: read the varuint length, read
`length // 8 + (1 if length % 8 else 0)` bytes, rebuild via `from_bytes`,
then `assert r._Bits__tail_bits() == buf[-1]` — unconditionally, also when
the length is a byte multiple; `buf[-1]` of an empty buffer raises
`IndexError`. -/
def bitsDeser (input : List Nat) : Except PyErr (Bits × List Nat) := do
  let lr ← readVaruint input 0 0
  let br ← readBytes lr.2 (lr.1 / 8 + (if lr.1 % 8 ≠ 0 then 1 else 0))
  let r := Bits.from_bytes br.1 lr.1
  match br.1.getLast? with
  | none => .error .indexError
  | some last =>
    if r.tailBits == last then .ok (r, br.2) else .error .assertionError

theorem getD_append_len {α : Type} (l : List α) (a d : α) :
    (l ++ [a]).getD l.length d = a := by
  rw [List.getD_eq_getElem?_getD, List.getElem?_append_right (le_refl _)]
  simp

/-- C5: the `Bits` wire round-trip succeeds and preserves the bits only for
lengths that are not a multiple of eight; for byte-multiple lengths the
deserializer's unconditional tail assertion rejects its own serializer's
output (`AssertionError`), and the empty bit string's round-trip fails with
`IndexError` on `buf[-1]`. -/
theorem C5_bits_roundtrip (b : Bits) (hwf : b.wfB = true)
    (hodd : b.length % 8 ≠ 0) :
    (∃ r, bitsDeser (bitsSer b) = .ok (r, []) ∧ r.eqb b = true) ∧
    bitsDeser (bitsSer ⟨[0x80], 8⟩) = .error .assertionError ∧
    bitsDeser (bitsSer ⟨[], 0⟩) = .error .indexError := by
  refine ⟨?_, ?_, ?_⟩
  · have hlen0 : b.length ≠ 0 := by omega
    have hfwl : b.fullWidthPfx.length = b.length / 8 := by
      have h3 : b.length / 8 ≤ 8 * b.buf.length / 8 :=
        Nat.div_le_div_right (Bits.length_le_buf b hwf)
      rw [Nat.mul_div_cancel_left _ (by norm_num)] at h3
      rw [Bits.fullWidthPfx, List.length_take]
      omega
    have hser : bitsSer b
        = writeVaruint b.length ++ (b.fullWidthPfx ++ [b.tailBits]) := by
      rw [bitsSer, if_pos hodd, List.append_assoc]
    have hrl : (Bits.from_bytes (b.fullWidthPfx ++ [b.tailBits])
        b.length).length = b.length := rfl
    have hrbuf : (Bits.from_bytes (b.fullWidthPfx ++ [b.tailBits])
        b.length).buf = b.fullWidthPfx ++ [b.tailBits] := by
      show (if b.length = 0 then [] else _) = _
      rw [if_neg hlen0]
    have htail : (Bits.from_bytes (b.fullWidthPfx ++ [b.tailBits])
        b.length).tailBits = b.tailBits := by
      rw [Bits.tailBits, hrl, hrbuf, if_pos hodd, ← hfwl, getD_append_len,
        Bits.tailBits, if_pos hodd, Nat.and_assoc, Nat.and_self]
    have hn2 : b.length / 8 + (if b.length % 8 ≠ 0 then 1 else 0)
        = (b.fullWidthPfx ++ [b.tailBits]).length := by
      rw [if_pos hodd, List.length_append, hfwl]
      simp
    refine ⟨Bits.from_bytes (b.fullWidthPfx ++ [b.tailBits]) b.length,
      ?_, ?_⟩
    · rw [hser, bitsDeser, readVaruint_write, exc_bind_ok]
      simp only [Nat.shiftLeft_zero, Nat.zero_or]
      rw [readBytes, hn2, if_pos (le_refl _), List.take_length,
        List.drop_length, exc_bind_ok]
      show (match (b.fullWidthPfx ++ [b.tailBits]).getLast? with
        | none => Except.error PyErr.indexError
        | some last =>
          if (Bits.from_bytes (b.fullWidthPfx ++ [b.tailBits])
              b.length).tailBits == last
          then Except.ok (Bits.from_bytes (b.fullWidthPfx ++ [b.tailBits])
            b.length, ([] : List Nat))
          else Except.error PyErr.assertionError) = _
      rw [List.getLast?_concat]
      show (if (Bits.from_bytes (b.fullWidthPfx ++ [b.tailBits])
            b.length).tailBits == b.tailBits
        then Except.ok (Bits.from_bytes (b.fullWidthPfx ++ [b.tailBits])
          b.length, ([] : List Nat))
        else Except.error PyErr.assertionError) = _
      rw [htail, if_pos (beq_self_eq_true b.tailBits)]
    · rw [Bits.eqb]
      have hfe : (Bits.from_bytes (b.fullWidthPfx ++ [b.tailBits])
          b.length).fullWidthPfx = b.fullWidthPfx := by
        rw [Bits.fullWidthPfx, hrl, hrbuf, ← hfwl, List.take_left]
      rw [if_neg (by rw [hrl]; simp), if_neg (by rw [hfe]; simp), htail]
      simp
  · have h1 : bitsSer ⟨[0x80], 8⟩ = [8, 0x80] := by
      rw [bitsSer,
        show (Bits.mk [0x80] 8).length = 8 from rfl,
        writeVaruint_small (by norm_num) (by norm_num)]
      rfl
    rw [h1]
    rfl
  · have h1 : bitsSer ⟨[], 0⟩ = [0] := by
      rw [bitsSer, show (Bits.mk [] 0).length = 0 from rfl, writeVaruint_zero]
      rfl
    rw [h1]
    rfl

theorem C5_bits_roundtrip_witness :
    (∃ r, bitsDeser (bitsSer ⟨[0x80, 0x80], 9⟩) = .ok (r, []) ∧
      r.eqb ⟨[0x80, 0x80], 9⟩ = true) ∧
    bitsDeser (bitsSer ⟨[0x80], 8⟩) = .error .assertionError ∧
    bitsDeser (bitsSer ⟨[], 0⟩) = .error .indexError :=
  C5_bits_roundtrip ⟨[0x80, 0x80], 9⟩ (by decide) (by decide)

/-- `ProofUnion._ctx_deserialize`: read the varuint variant selector and
dispatch to the registered variant's deserializer.  For an out-of-range
selector the source executes `raise DeserializationError(...)` — but
`proof.py` never imports `DeserializationError`, so the name lookup itself
fails and the deserialization dies with a `NameError` instead (and
`serialize.DeserializationError` is not an `Exception` subclass anyway, so
even an imported name could not be raised). -/
def ctxDeserializeUnion {α : Type} (variants : List (List Nat → Except PyErr α))
    (input : List Nat) : Except PyErr α := do
  let ir ← readVaruint input 0 0
  match variants.get? ir.1 with
  | some d => d ir.2
  | none => .error .nameError

/-- C7: deserializing a `ProofUnion` whose varuint variant selector is not an
index into the registered variant list does not fail with the intended
"bad union class number" `DeserializationError`: the name is not imported in
`proof.py`, so the failure is a `NameError`. -/
theorem C7_union_bad_selector {α : Type}
    (variants : List (List Nat → Except PyErr α)) (i : Nat) (rest : List Nat)
    (hge : variants.length ≤ i) :
    ctxDeserializeUnion variants (writeVaruint i ++ rest)
      = .error .nameError := by
  rw [ctxDeserializeUnion, readVaruint_write, exc_bind_ok]
  simp only [Nat.shiftLeft_zero, Nat.zero_or]
  rw [List.get?_eq_none.mpr hge]

theorem C7_union_bad_selector_witness :
    ctxDeserializeUnion ([] : List (List Nat → Except PyErr Nat))
      (writeVaruint 3 ++ []) = .error .nameError :=
  C7_union_bad_selector [] 3 [] (by norm_num)

/-! ### Merkle Mountain Ranges (`mmr.py`, in the repository's `IntMMR`
configuration: `VALUE_SERIALIZER = UInt64`) -/

/-- A fully-present MMR node: the `Empty` singleton, a `Leaf` with its value,
or an `Inner` node with its two children and its stored `length` field. -/
inductive MMRNode where
  | empty
  | leaf (value : Nat)
  | inner (left right : MMRNode) (length : Nat)
deriving DecidableEq

/-- `__len__` of each variant: 0, 1, or the stored `length` field. -/
def MMRNode.lengthN : MMRNode → Nat
  | .empty => 0
  | .leaf _ => 1
  | .inner _ _ len => len

/-- `LeafNodeClass(value)`: `Proof.__new__` runs
`UInt64.check_instance(value)`, raising `SerializerValueError` out of
`0 <= value <= 2**64 - 1`. -/
def MMRNode.mkLeafM (v : Nat) : Except PyErr MMRNode :=
  if 2 ^ 64 - 1 < v then .error .serValueError else .ok (.leaf v)

/-- `InnerNodeClass(left, right)`: the computed `length = len(left) +
len(right)` passes through `UInt64.check_instance`. -/
def MMRNode.mkInnerM (l r : MMRNode) : Except PyErr MMRNode :=
  if 2 ^ 64 - 1 < l.lengthN + r.lengthN then .error .serValueError
  else .ok (.inner l r (l.lengthN + r.lengthN))

/-- The `while not l & 1: l >>= 1` loop of `is_perfect_tree`: strip trailing
zero bits. -/
def oddPart (l : Nat) : Nat :=
  if l = 0 then 0
  else if l % 2 = 0 then oddPart (l / 2)
  else l
termination_by l
decreasing_by
  exact Nat.div_lt_self (by omega) (by norm_num)

/-- `MerkleMountainRange.is_perfect_tree`: empty is not perfect; otherwise
strip trailing zeros and test `not (l & ~1)`, i.e. whether the odd part
is 1. -/
def MMRNode.is_perfect_tree (t : MMRNode) : Bool :=
  if t.lengthN = 0 then false
  else oddPart t.lengthN == 1

/-- `MerkleMountainRangeInnerNode._merge_trees(new_right)`: defined only on
inner nodes (a leaf or empty receiver has no such attribute —
`AttributeError`); asserts the receiver is at least as long, combines
directly when no equal-height subtrees exist or when both are the same
perfect tree, otherwise asserts the right subtree shares a height with the
new right and recurses right, then left. -/
def MMRNode.mergeTrees : MMRNode → MMRNode → Except PyErr MMRNode
  | .empty, _ => .error .attributeError
  | .leaf _, _ => .error .attributeError
  | .inner l r len, nr =>
    if ¬ nr.lengthN ≤ len then .error .assertionError
    else if len &&& nr.lengthN = 0 then MMRNode.mkInnerM (.inner l r len) nr
    else if len = nr.lengthN then
      if ¬ (MMRNode.is_perfect_tree (.inner l r len) = true) then
        .error .assertionError
      else MMRNode.mkInnerM (.inner l r len) nr
    else
      if r.lengthN &&& nr.lengthN = 0 then .error .assertionError
      else do
        let nr2 ← r.mergeTrees nr
        l.mergeTrees nr2

/-- `append(value)` of each variant: `Empty` and `Leaf` build a new leaf
(under an inner node for `Leaf`); an `Inner` node with even stored length
pairs itself with the new leaf, with odd length appends to its right subtree
and merges the result into its left subtree. -/
def MMRNode.appendM : MMRNode → Nat → Except PyErr MMRNode
  | .empty, v => MMRNode.mkLeafM v
  | .leaf v0, v => do
    let right ← MMRNode.mkLeafM v
    MMRNode.mkInnerM (.leaf v0) right
  | .inner l r len, v =>
    if len &&& 1 = 0 then do
      let lf ← MMRNode.mkLeafM v
      MMRNode.mkInnerM (.inner l r len) lf
    else do
      let nr ← r.appendM v
      l.mergeTrees nr

/-- `MerkleMountainRange.__new__(iterable)` /
`extend`: start from the `Empty` singleton and `append` each value. -/
def MMRNode.appendAll (vs : List Nat) : Except PyErr MMRNode :=
  vs.foldlM MMRNode.appendM .empty

/-- `__getitem__` with an `int` index, per variant: `Empty` always raises
`IndexError`; `Leaf` answers `0` and `-1`; `Inner` normalizes a negative
index by its stored length, bound-checks, and routes into the child whose
range contains the index (the final `assert False` is unreachable only when
the stored lengths are consistent). -/
def MMRNode.getAt : MMRNode → Int → Except PyErr Nat
  | .empty, _ => .error .indexError
  | .leaf v, idx =>
    if idx = 0 ∨ idx = -1 then .ok v else .error .indexError
  | .inner l r len, idx =>
    let idx2 := if idx < 0 then (len : Int) + idx else idx
    if ¬ (0 ≤ idx2 ∧ idx2 < (len : Int)) then .error .indexError
    else if 0 ≤ idx2 ∧ idx2 < (l.lengthN : Int) then l.getAt idx2
    else if (l.lengthN : Int) ≤ idx2 ∧
        idx2 < (l.lengthN : Int) + (r.lengthN : Int) then
      r.getAt (idx2 - (l.lengthN : Int))
    else .error .assertionError

/-- `__iter__` of each variant: the left-to-right sequence of leaf values. -/
def MMRNode.leaves : MMRNode → List Nat
  | .empty => []
  | .leaf v => [v]
  | .inner l r _ => l.leaves ++ r.leaves

/-- A perfect mountain of height `k`: `2^k` leaves in order, every inner
node's stored length consistent. -/
inductive Mnt : Nat → MMRNode → List Nat → Prop where
  | leaf (v : Nat) (hv : v < 2 ^ 64) : Mnt 0 (.leaf v) [v]
  | node (k : Nat) (l r : MMRNode) (lvs rvs : List Nat) (hl : Mnt k l lvs)
      (hr : Mnt k r rvs) :
      Mnt (k + 1) (.inner l r (lvs.length + rvs.length)) (lvs ++ rvs)

/-- The shape `append` maintains: a left-associated chain of perfect
mountains of strictly decreasing heights, the parameter being the height of
the rightmost (smallest) mountain. -/
inductive Chain : Nat → MMRNode → List Nat → Prop where
  | single (k : Nat) (t : MMRNode) (vs : List Nat) (h : Mnt k t vs) :
      Chain k t vs
  | step (k2 k : Nat) (t m : MMRNode) (vs mvs : List Nat) (hc : Chain k t vs)
      (hm : Mnt k2 m mvs) (hlt : k2 < k) :
      Chain k2 (.inner t m (vs.length + mvs.length)) (vs ++ mvs)

/-- Consistency of the stored lengths with the leaf sequence, enough for
`__getitem__`. -/
inductive GoodM : MMRNode → List Nat → Prop where
  | empty : GoodM .empty []
  | leaf (v : Nat) : GoodM (.leaf v) [v]
  | inner (l r : MMRNode) (lvs rvs : List Nat) (hl : GoodM l lvs)
      (hr : GoodM r rvs) :
      GoodM (.inner l r (lvs.length + rvs.length)) (lvs ++ rvs)

theorem Mnt.len_eq {k : Nat} {t : MMRNode} {vs : List Nat} (h : Mnt k t vs) :
    vs.length = 2 ^ k := by
  induction h with
  | leaf v hv => rfl
  | node k l r lvs rvs hl hr ihl ihr =>
    simp only [List.length_append, ihl, ihr]
    omega

theorem Mnt.lengthN_eq {k : Nat} {t : MMRNode} {vs : List Nat}
    (h : Mnt k t vs) : t.lengthN = vs.length := by
  cases h with
  | leaf v hv => rfl
  | node k l r lvs rvs hl hr => simp [MMRNode.lengthN]

theorem Mnt.good {k : Nat} {t : MMRNode} {vs : List Nat} (h : Mnt k t vs) :
    GoodM t vs := by
  induction h with
  | leaf v hv => exact GoodM.leaf v
  | node k l r lvs rvs hl hr ihl ihr => exact GoodM.inner l r lvs rvs ihl ihr

theorem Chain.lenN_eq {k : Nat} {t : MMRNode} {vs : List Nat}
    (h : Chain k t vs) : t.lengthN = vs.length := by
  cases h with
  | single k t vs hm => exact hm.lengthN_eq
  | step k2 k t m vs mvs hc hm hlt => simp [MMRNode.lengthN]

theorem Chain.toGood {k : Nat} {t : MMRNode} {vs : List Nat}
    (h : Chain k t vs) : GoodM t vs := by
  induction h with
  | single k t vs hm => exact hm.good
  | step k2 k t m vs mvs hc hm hlt ihc =>
    exact GoodM.inner t m vs mvs ihc hm.good

theorem Chain.mod {k : Nat} {t : MMRNode} {vs : List Nat}
    (h : Chain k t vs) : vs.length % 2 ^ (k + 1) = 2 ^ k := by
  induction h with
  | single k t vs hm =>
    rw [hm.len_eq]
    exact Nat.mod_eq_of_lt (Nat.pow_lt_pow_right (by omega) (by omega))
  | step k2 k t m vs mvs hc hm hlt ih =>
    rw [List.length_append, hm.len_eq]
    have hdvd : 2 ^ (k2 + 1) ∣ vs.length := by
      set q := vs.length / 2 ^ (k + 1) with hqdef
      have h0 := Nat.div_add_mod vs.length (2 ^ (k + 1))
      rw [ih, ← hqdef] at h0
      have h1 : 2 ^ k ∣ vs.length := by
        refine ⟨2 * q + 1, ?_⟩
        rw [← h0, pow_succ]
        ring
      exact dvd_trans (pow_dvd_pow 2 (by omega)) h1
    obtain ⟨q, hq⟩ := hdvd
    rw [hq, Nat.mul_add_mod]
    exact Nat.mod_eq_of_lt (Nat.pow_lt_pow_right (by omega) (by omega))


theorem div_pow_of_mod {L k q m : Nat} (h0 : L = 2 ^ (k + 1) * q + 2 ^ k)
    (hm : m ≤ k) : L / 2 ^ m = 2 ^ (k + 1 - m) * q + 2 ^ (k - m) := by
  have h2 : 2 ^ (k + 1) = 2 ^ m * 2 ^ (k + 1 - m) := by
    rw [← pow_add]
    congr 1
    omega
  have h3 : 2 ^ k = 2 ^ m * 2 ^ (k - m) := by
    rw [← pow_add]
    congr 1
    omega
  rw [h0, h2, h3, Nat.mul_assoc, ← Nat.mul_add,
    Nat.mul_div_cancel_left _ (Nat.two_pow_pos m)]

theorem and_pow_eq_zero_of_mod {L k m : Nat}
    (hmod : L % 2 ^ (k + 1) = 2 ^ k) (hm : m < k) : L &&& 2 ^ m = 0 := by
  rw [Nat.and_two_pow]
  have h0 := Nat.div_add_mod L (2 ^ (k + 1))
  rw [hmod] at h0
  have hL : L = 2 ^ (k + 1) * (L / 2 ^ (k + 1)) + 2 ^ k := by omega
  have hdiv := div_pow_of_mod hL (show m ≤ k by omega)
  have e2 : 2 ^ (k - m) = 2 * 2 ^ (k - m - 1) := by
    rw [← pow_succ']
    congr 1
    omega
  have hpar : L / 2 ^ m % 2 = 0 := by
    rw [hdiv]
    calc (2 ^ (k + 1 - m) * (L / 2 ^ (k + 1)) + 2 ^ (k - m)) % 2
        = (2 * (2 ^ (k - m) * (L / 2 ^ (k + 1)) + 2 ^ (k - m - 1))) % 2 := by
          rw [show (2 : Nat) ^ (k + 1 - m) = 2 * 2 ^ (k - m) from by
            rw [← pow_succ']
            congr 1
            omega]
          rw [Nat.mul_add]
          rw [← e2]
          ring_nf
      _ = 0 := Nat.mul_mod_right 2 _
  have hbit : L.testBit m = false := by
    rw [Nat.testBit_to_div_mod, hpar]
    simp
  rw [hbit]
  simp

theorem and_pow_self_of_mod {L k : Nat} (hmod : L % 2 ^ (k + 1) = 2 ^ k) :
    L &&& 2 ^ k = 2 ^ k := by
  rw [Nat.and_two_pow]
  have h0 := Nat.div_add_mod L (2 ^ (k + 1))
  rw [hmod] at h0
  have hL : L = 2 ^ (k + 1) * (L / 2 ^ (k + 1)) + 2 ^ k := by omega
  have hdiv := div_pow_of_mod hL (le_refl k)
  rw [show k + 1 - k = 1 from by omega, show k - k = 0 from by omega,
    pow_one, pow_zero] at hdiv
  have hbit : L.testBit k = true := by
    rw [Nat.testBit_to_div_mod, hdiv]
    simp [Nat.mul_add_mod]
  rw [hbit]
  simp

theorem oddPart_two_pow (k : Nat) : oddPart (2 ^ k) = 1 := by
  induction k with
  | zero =>
    rw [oddPart]
    norm_num
  | succ k ih =>
    rw [oddPart, if_neg (by positivity), if_pos (by
      rw [pow_succ, Nat.mul_mod_left]),
      show (2 : Nat) ^ (k + 1) / 2 = 2 ^ k from by
        rw [pow_succ, Nat.mul_div_cancel _ (by norm_num)]]
    exact ih

theorem Mnt.perfect {k : Nat} {t : MMRNode} {vs : List Nat}
    (h : Mnt k t vs) : t.is_perfect_tree = true := by
  rw [MMRNode.is_perfect_tree, h.lengthN_eq, h.len_eq,
    if_neg (by positivity), oddPart_two_pow]
  rfl

theorem mkInnerM_ok {a b : MMRNode} {x y : Nat} (hx : a.lengthN = x)
    (hy : b.lengthN = y) (hs : x + y < 2 ^ 64) :
    MMRNode.mkInnerM a b = .ok (.inner a b (x + y)) := by
  rw [MMRNode.mkInnerM, hx, hy, if_neg (by omega)]

theorem mnt_merge {k : Nat} {a b : MMRNode} {avs bvs : List Nat}
    (ha : Mnt k a avs) (hb : Mnt k b bvs) (hk : 1 ≤ k)
    (hsz : avs.length + bvs.length < 2 ^ 64) :
    MMRNode.mergeTrees a b = .ok (.inner a b (avs.length + bvs.length)) ∧
    Mnt (k + 1) (.inner a b (avs.length + bvs.length)) (avs ++ bvs) := by
  cases ha with
  | leaf v hv => omega
  | node k0 l r lvs rvs hl hr =>
    have hA : Mnt (k0 + 1) (.inner l r (lvs.length + rvs.length))
        (lvs ++ rvs) := Mnt.node k0 l r lvs rvs hl hr
    have hp2 : (2 : Nat) ^ (k0 + 1) = 2 ^ k0 + 2 ^ k0 := by
      rw [pow_succ]
      omega
    have hlen : lvs.length + rvs.length = 2 ^ (k0 + 1) := by
      have h1 := hl.len_eq
      have h2 := hr.len_eq
      omega
    have hbl : b.lengthN = 2 ^ (k0 + 1) := by
      rw [hb.lengthN_eq, hb.len_eq]
    constructor
    · rw [MMRNode.mergeTrees]
      have hle : b.lengthN ≤ lvs.length + rvs.length := by
        rw [hbl, hlen]
      rw [if_neg (not_not_intro hle)]
      have h2 : (lvs.length + rvs.length) &&& b.lengthN = 2 ^ (k0 + 1) := by
        rw [hbl, hlen, Nat.and_self]
      rw [if_neg (by rw [h2]; exact (Nat.two_pow_pos _).ne'),
        if_pos (by rw [hbl, hlen]),
        if_neg (not_not_intro (Mnt.perfect hA))]
      exact mkInnerM_ok (by simp [MMRNode.lengthN]) hb.lengthN_eq
        (by simpa using hsz)
    · have := Mnt.node (k0 + 1) (.inner l r (lvs.length + rvs.length)) b
        (lvs ++ rvs) bvs hA hb
      simpa using this

theorem chain_merge {k : Nat} {c : MMRNode} {cvs : List Nat}
    (hc : Chain k c cvs) :
    ∀ {m : Nat} {b : MMRNode} {bvs : List Nat}, Mnt m b bvs → 1 ≤ m → m ≤ k →
    cvs.length + bvs.length < 2 ^ 64 →
    ∃ k2 t2, MMRNode.mergeTrees c b = .ok t2 ∧ Chain k2 t2 (cvs ++ bvs) := by
  induction hc with
  | single k t vs hm =>
    intro m b bvs hb hm1 hmk hsz
    rcases Nat.lt_or_ge m k with hlt | hge
    · cases hm with
      | leaf v hv => omega
      | node k0 l r lvs rvs hl hr =>
        have hA : Mnt (k0 + 1) (.inner l r (lvs.length + rvs.length))
            (lvs ++ rvs) := Mnt.node k0 l r lvs rvs hl hr
        have hp2 : (2 : Nat) ^ (k0 + 1) = 2 ^ k0 + 2 ^ k0 := by
          rw [pow_succ]
          omega
        have hlen : lvs.length + rvs.length = 2 ^ (k0 + 1) := by
          have h1 := hl.len_eq
          have h2 := hr.len_eq
          omega
        have hbl : b.lengthN = 2 ^ m := by
          rw [hb.lengthN_eq, hb.len_eq]
        refine ⟨m, .inner (.inner l r (lvs.length + rvs.length)) b
          ((lvs ++ rvs).length + bvs.length), ?_, ?_⟩
        · rw [MMRNode.mergeTrees]
          have hle : b.lengthN ≤ lvs.length + rvs.length := by
            rw [hbl, hlen]
            exact Nat.pow_le_pow_right (by omega) (by omega)
          rw [if_neg (not_not_intro hle)]
          have hz : (lvs.length + rvs.length) &&& b.lengthN = 0 := by
            rw [hbl, hlen]
            exact and_pow_eq_zero_of_mod
              (Nat.mod_eq_of_lt (Nat.pow_lt_pow_right (by omega) (by omega)))
              hlt
          rw [if_pos hz]
          exact mkInnerM_ok (by simp [MMRNode.lengthN]) hb.lengthN_eq
            (by simpa using hsz)
        · have := Chain.step m (k0 + 1) (.inner l r (lvs.length + rvs.length))
            b (lvs ++ rvs) bvs (Chain.single _ _ _ hA) hb hlt
          simpa using this
    · have hmk2 : m = k := by omega
      subst hmk2
      obtain ⟨heq, hmnt⟩ := mnt_merge hm hb hm1 hsz
      exact ⟨m + 1, _, heq, Chain.single _ _ _ hmnt⟩
  | step k2 k t mn vs mvs hcc hmn hlt ih =>
    intro m b bvs hb hm1 hmk hsz
    have hmod : (vs.length + mvs.length) % 2 ^ (k2 + 1) = 2 ^ k2 := by
      have h := Chain.mod (Chain.step k2 k t mn vs mvs hcc hmn hlt)
      simpa using h
    have hbl : b.lengthN = 2 ^ m := by rw [hb.lengthN_eq, hb.len_eq]
    have hLge : 2 ^ k2 ≤ vs.length + mvs.length := by
      rw [← hmod]
      exact Nat.mod_le _ _
    rcases Nat.lt_or_ge m k2 with hlt2 | hge2
    · refine ⟨m, .inner (.inner t mn (vs.length + mvs.length)) b
        ((vs ++ mvs).length + bvs.length), ?_, ?_⟩
      · rw [MMRNode.mergeTrees]
        have hle : b.lengthN ≤ vs.length + mvs.length := by
          rw [hbl]
          exact le_trans (Nat.pow_le_pow_right (by omega) (by omega)) hLge
        rw [if_neg (not_not_intro hle)]
        have hz : (vs.length + mvs.length) &&& b.lengthN = 0 := by
          rw [hbl]
          exact and_pow_eq_zero_of_mod hmod hlt2
        rw [if_pos hz]
        exact mkInnerM_ok (by simp [MMRNode.lengthN]) hb.lengthN_eq
          (by simpa using hsz)
      · have := Chain.step m k2 (.inner t mn (vs.length + mvs.length)) b
          (vs ++ mvs) bvs (Chain.step k2 k t mn vs mvs hcc hmn hlt) hb hlt2
        simpa using this
    · have hm2 : m = k2 := by omega
      subst hm2
      have hvsge : 2 ^ k ≤ vs.length := by
        rw [← Chain.mod hcc]
        exact Nat.mod_le _ _
      have hmnl : mn.lengthN = 2 ^ m := by
        rw [hmn.lengthN_eq, hmn.len_eq]
      have hmvl : mvs.length = 2 ^ m := hmn.len_eq
      obtain ⟨heq2, hmnt2⟩ := mnt_merge hmn hb hm1
        (by
          have h1 : (vs ++ mvs).length + bvs.length < 2 ^ 64 := hsz
          simp only [List.length_append] at h1
          omega)
      rw [MMRNode.mergeTrees]
      have hle : b.lengthN ≤ vs.length + mvs.length := by
        rw [hbl]
        omega
      rw [if_neg (not_not_intro hle)]
      have hnz : (vs.length + mvs.length) &&& b.lengthN ≠ 0 := by
        rw [hbl, and_pow_self_of_mod hmod]
        exact (Nat.two_pow_pos _).ne'
      rw [if_neg hnz]
      have hne : ¬ (vs.length + mvs.length = b.lengthN) := by
        rw [hbl]
        have h1 : 0 < 2 ^ k := Nat.two_pow_pos k
        omega
      rw [if_neg hne]
      have hrnz : mn.lengthN &&& b.lengthN ≠ 0 := by
        rw [hbl, hmnl, Nat.and_self]
        exact (Nat.two_pow_pos _).ne'
      rw [if_neg hrnz, heq2, exc_bind_ok]
      obtain ⟨k3, t3, heq3, hch3⟩ := ih hmnt2 (by omega) (by omega)
        (by
          have h1 : (vs ++ mvs).length + bvs.length < 2 ^ 64 := hsz
          simp only [List.length_append] at h1
          simp only [List.length_append]
          omega)
      refine ⟨k3, t3, heq3, ?_⟩
      rw [List.append_assoc]
      exact hch3

theorem mmr_even_of_mod {L k : Nat} (hmod : L % 2 ^ (k + 1) = 2 ^ k)
    (hk : 1 ≤ k) : L &&& 1 = 0 := by
  have h := and_pow_eq_zero_of_mod hmod (show 0 < k by omega)
  rwa [pow_zero] at h

theorem append_chain {k : Nat} {t : MMRNode} {vs : List Nat}
    (hc : Chain k t vs) {v : Nat} (hv : v < 2 ^ 64)
    (hlen : vs.length + 1 < 2 ^ 64) :
    ∃ k2 t2, t.appendM v = .ok t2 ∧ Chain k2 t2 (vs ++ [v]) := by
  have hmod := hc.mod
  have hleaf : MMRNode.mkLeafM v = .ok (.leaf v) := by
    rw [MMRNode.mkLeafM, if_neg (by omega)]
  rcases Nat.eq_zero_or_pos k with hk0 | hkpos
  · subst hk0
    cases hc with
    | single k t vs hm =>
      cases hm with
      | leaf v0 hv0 =>
        rw [MMRNode.appendM, hleaf, exc_bind_ok]
        refine ⟨1, .inner (.leaf v0) (.leaf v)
          (List.length [v0] + List.length [v]), ?_, ?_⟩
        · exact mkInnerM_ok rfl rfl (by simp)
        · exact Chain.single 1 _ _
            (Mnt.node 0 (.leaf v0) (.leaf v) [v0] [v]
              (Mnt.leaf v0 hv0) (Mnt.leaf v hv))
    | step k2 k t mn vs mvs hcc hmn hlt =>
      cases hmn with
      | leaf v0 hv0 =>
        rw [MMRNode.appendM]
        have hccmod := Chain.mod hcc
        have hodd : (vs.length + List.length [v0]) &&& 1 ≠ 0 := by
          have heven := mmr_even_of_mod hccmod (by omega)
          rw [Nat.and_one_is_mod] at heven ⊢
          simp only [List.length_singleton]
          omega
        rw [if_neg hodd, MMRNode.appendM, hleaf, exc_bind_ok,
          mkInnerM_ok (show (MMRNode.leaf v0).lengthN = List.length [v0]
            from rfl) (show (MMRNode.leaf v).lengthN = List.length [v]
            from rfl) (by simp), exc_bind_ok]
        have hm2 : Mnt 1 (.inner (.leaf v0) (.leaf v)
            (List.length [v0] + List.length [v])) ([v0] ++ [v]) :=
          Mnt.node 0 (.leaf v0) (.leaf v) [v0] [v]
            (Mnt.leaf v0 hv0) (Mnt.leaf v hv)
        obtain ⟨k3, t3, heq3, hch3⟩ := chain_merge hcc hm2 (le_refl 1)
          (by omega)
          (by
            simp only [List.length_append, List.length_singleton] at hlen ⊢
            omega)
        refine ⟨k3, t3, heq3, ?_⟩
        rw [List.append_assoc]
        exact hch3
  · have hinner : ∃ l r len, t = .inner l r len := by
      cases hc with
      | single k t vs hm =>
        cases hm with
        | leaf v0 hv0 => omega
        | node k0 l r lvs rvs hl hr => exact ⟨l, r, _, rfl⟩
      | step k2 k t mn vs mvs hcc hmn hlt => exact ⟨t, mn, _, rfl⟩
    obtain ⟨l, r, len, rfl⟩ := hinner
    have hlenf : len = vs.length := by
      have h := hc.lenN_eq
      simpa [MMRNode.lengthN] using h
    rw [MMRNode.appendM]
    have heven : len &&& 1 = 0 := by
      rw [hlenf]
      exact mmr_even_of_mod hmod hkpos
    rw [if_pos heven, hleaf, exc_bind_ok]
    refine ⟨0, .inner (.inner l r len) (.leaf v)
      (vs.length + List.length [v]), ?_, ?_⟩
    · exact mkInnerM_ok (by simp [MMRNode.lengthN, hlenf]) rfl
        (by simp; omega)
    · exact Chain.step 0 k (.inner l r len) (.leaf v) vs [v] hc
        (Mnt.leaf v hv) hkpos

theorem appendAll_go (ws : List Nat) :
    ∀ {k : Nat} {t : MMRNode} {vs : List Nat}, Chain k t vs →
    (∀ w ∈ ws, w < 2 ^ 64) → vs.length + ws.length < 2 ^ 64 →
    ∃ k2 t2, ws.foldlM MMRNode.appendM t = .ok t2 ∧
      Chain k2 t2 (vs ++ ws) := by
  induction ws with
  | nil =>
    intro k t vs hc _ _
    exact ⟨k, t, rfl, by simpa using hc⟩
  | cons w ws ih =>
    intro k t vs hc hval hsz
    obtain ⟨k1, t1, heq1, hch1⟩ := append_chain hc
      (hval w (List.mem_cons_self _ _)) (by simp at hsz; omega)
    rw [List.foldlM_cons, heq1, exc_bind_ok]
    obtain ⟨k2, t2, heq2, hch2⟩ := ih hch1
      (fun w2 hw2 => hval w2 (List.mem_cons_of_mem _ hw2))
      (by simp at hsz ⊢; omega)
    refine ⟨k2, t2, heq2, ?_⟩
    rw [List.append_assoc] at hch2
    simpa using hch2

theorem GoodM.lengthNv {t : MMRNode} {vs : List Nat} (h : GoodM t vs) :
    t.lengthN = vs.length := by
  cases h with
  | empty => rfl
  | leaf v => rfl
  | inner l r lvs rvs hl hr => simp [MMRNode.lengthN]

theorem getAt_nonneg {t : MMRNode} {vs : List Nat} (hg : GoodM t vs) :
    ∀ idx : Int, 0 ≤ idx → idx < (vs.length : Int) →
      t.getAt idx = .ok (vs.getD idx.toNat 0) := by
  induction hg with
  | empty =>
    intro idx h0 h1
    simp at h1
    omega
  | leaf v =>
    intro idx h0 h1
    have hz : idx = 0 := by
      simp at h1
      omega
    subst hz
    rw [MMRNode.getAt, if_pos (Or.inl rfl)]
    rfl
  | inner l r lvs rvs hl hr ihl ihr =>
    intro idx h0 h1
    simp only [List.length_append] at h1
    simp only [MMRNode.getAt]
    rw [hl.lengthNv, hr.lengthNv,
      if_neg (show ¬ (idx < 0) from by omega),
      if_neg (not_not_intro ⟨h0, h1⟩)]
    by_cases hil : idx < (lvs.length : Int)
    · rw [if_pos ⟨h0, hil⟩, ihl idx h0 hil,
        List.getD_append _ _ _ _ (by omega)]
    · rw [if_neg (by omega), if_pos ⟨by omega, by omega⟩,
        ihr (idx - (lvs.length : Int)) (by omega) (by omega)]
      have hto : (idx - (lvs.length : Int)).toNat = idx.toNat - lvs.length := by
        omega
      rw [hto, List.getD_append_right _ _ _ _ (by omega)]

theorem getAt_neg {t : MMRNode} {vs : List Nat} (hg : GoodM t vs) (j : Nat)
    (h1 : 1 ≤ j) (h2 : j ≤ vs.length) :
    t.getAt (-(j : Int)) = .ok (vs.getD (vs.length - j) 0) := by
  cases hg with
  | empty =>
    simp at h2
    omega
  | leaf v =>
    have hj : j = 1 := by
      simp at h2
      omega
    subst hj
    rw [MMRNode.getAt, if_pos (Or.inr (by norm_num))]
    rfl
  | inner l r lvs rvs hl hr =>
    simp only [List.length_append] at h2 ⊢
    simp only [MMRNode.getAt]
    rw [hl.lengthNv, hr.lengthNv,
      if_pos (show -(j : Int) < 0 from by omega),
      show ((lvs.length + rvs.length : Nat) : Int) + (-(j : Int))
        = ((lvs.length + rvs.length - j : Nat) : Int) from by omega,
      if_neg (not_not_intro ⟨by omega, by omega⟩)]
    by_cases hlt : lvs.length + rvs.length - j < lvs.length
    · rw [if_pos ⟨by omega, by omega⟩,
        getAt_nonneg hl _ (by omega) (by omega), Int.toNat_natCast,
        List.getD_append _ _ _ _ (by omega)]
    · rw [if_neg (by omega), if_pos ⟨by omega, by omega⟩,
        show ((lvs.length + rvs.length - j : Nat) : Int)
          - ((lvs.length : Nat) : Int)
          = ((lvs.length + rvs.length - j - lvs.length : Nat) : Int) from by
          omega,
        getAt_nonneg hr _ (by omega) (by omega), Int.toNat_natCast,
        List.getD_append_right _ _ _ _ (by omega)]

/-- C3: appending `N` values to the empty mountain range yields a range whose
reported length is `N`, where reading index `i` returns the `i`-th appended
value for every `0 <= i < N`, and reading negative index `-j` returns the
`(N-j)`-th appended value. -/
theorem C3_append_then_get (vs : List Nat) (hv : ∀ v ∈ vs, v < 2 ^ 64)
    (hlen : vs.length < 2 ^ 64) :
    ∃ t, MMRNode.appendAll vs = .ok t ∧ t.lengthN = vs.length ∧
      (∀ i : Nat, i < vs.length → t.getAt (i : Int) = .ok (vs.getD i 0)) ∧
      (∀ j : Nat, 1 ≤ j → j ≤ vs.length →
        t.getAt (-(j : Int)) = .ok (vs.getD (vs.length - j) 0)) := by
  cases vs with
  | nil =>
    refine ⟨.empty, rfl, rfl, ?_, ?_⟩
    · intro i hi
      simp at hi
    · intro j hj1 hj2
      simp at hj2
      omega
  | cons w ws =>
    have hw : w < 2 ^ 64 := hv w (List.mem_cons_self _ _)
    rw [MMRNode.appendAll, List.foldlM_cons,
      show MMRNode.appendM .empty w = .ok (.leaf w) from by
        rw [MMRNode.appendM, MMRNode.mkLeafM, if_neg (by omega)],
      exc_bind_ok]
    have hch0 : Chain 0 (.leaf w) [w] := Chain.single 0 _ _ (Mnt.leaf w hw)
    obtain ⟨k2, t2, heq2, hch2⟩ := appendAll_go ws hch0
      (fun v hvm => hv v (List.mem_cons_of_mem _ hvm))
      (by simp at hlen ⊢; omega)
    refine ⟨t2, heq2, ?_, ?_, ?_⟩
    · rw [hch2.lenN_eq]
      simp
    · intro i hi
      simp only [List.length_cons] at hi
      have h := getAt_nonneg hch2.toGood (i : Int) (by omega)
        (by simp only [List.singleton_append, List.length_cons]; omega)
      simp only [List.singleton_append, Int.toNat_natCast] at h
      exact h
    · intro j hj1 hj2
      simp only [List.length_cons] at hj2
      have h := getAt_neg hch2.toGood j hj1
        (by simp only [List.singleton_append, List.length_cons]; omega)
      simp only [List.singleton_append] at h
      exact h

theorem C3_append_then_get_witness :
    ∃ t, MMRNode.appendAll [10, 11, 12] = .ok t ∧
      t.lengthN = [10, 11, 12].length ∧
      (∀ i : Nat, i < [10, 11, 12].length →
        t.getAt (i : Int) = .ok ([10, 11, 12].getD i 0)) ∧
      (∀ j : Nat, 1 ≤ j → j ≤ [10, 11, 12].length →
        t.getAt (-(j : Int))
          = .ok ([10, 11, 12].getD ([10, 11, 12].length - j) 0)) :=
  C3_append_then_get [10, 11, 12] (by decide) (by decide)

/-- `ctx_serialize` of a fully-present MMR node: the pruning flag `False`,
then the field encoding (`_ctx_serialize`): the varuint union-class selector
(`Empty` = 0, `Leaf` = 1, `Inner` = 2, in declaration order), then the
declared `SERIALIZED_ATTRS` in order — for an inner node `left`, `right`,
then `length` — children recursing through the same node encoding. -/
def MMRNode.serNode : MMRNode → List Nat
  | .empty => writeBool false ++ writeVaruint 0
  | .leaf v => writeBool false ++ (writeVaruint 1 ++ writeVaruint v)
  | .inner l r len =>
    writeBool false ++
      (writeVaruint 2 ++ l.serNode ++ r.serNode ++ writeVaruint len)

/-- `_ctx_serialize` alone (the serialized field encoding, without the outer
pruning flag). -/
def MMRNode.serFields : MMRNode → List Nat
  | .empty => writeVaruint 0
  | .leaf v => writeVaruint 1 ++ writeVaruint v
  | .inner l r len =>
    writeVaruint 2 ++ l.serNode ++ r.serNode ++ writeVaruint len

/-- The inner-node field ordering claimed by the spec sentence under test:
the length as a varuint first, then the left child's encoding, then the
right child's. -/
def MMRNode.serFieldsClaim (l r : MMRNode) (len : Nat) : List Nat :=
  writeVaruint len ++ l.serNode ++ r.serNode

theorem C6_cx_length_not_first :
    (MMRNode.inner (.leaf 0x0e) (.leaf 0x0f) 2).serFields ≠
      MMRNode.serFieldsClaim (.leaf 0x0e) (.leaf 0x0f) 2 := by
  have e1 : writeVaruint 2 = [2] := writeVaruint_small (by norm_num) (by norm_num)
  have e2 : writeVaruint 0x0e = [0x0e] :=
    writeVaruint_small (by norm_num) (by norm_num)
  have e3 : writeVaruint 0x0f = [0x0f] :=
    writeVaruint_small (by norm_num) (by norm_num)
  have e4 : writeVaruint 1 = [1] := writeVaruint_small (by norm_num) (by norm_num)
  simp [MMRNode.serFields, MMRNode.serFieldsClaim, MMRNode.serNode, writeBool,
    e1, e2, e3, e4]

/-- C6 (amended): the serialized field encoding of a fully-present inner node
is the varuint union-class selector, then the left child's encoding, then the
right child's encoding, and the length as a varuint last (`SERIALIZED_ATTRS`
declares `left`, `right`, `length` in that order); witnessed against the
repository's serialization test vector `00 02 00010e 00010f 02` for the
two-element range. -/
theorem C6_inner_field_order (l r : MMRNode) (len : Nat) :
    (MMRNode.inner l r len).serFields
      = writeVaruint 2 ++ l.serNode ++ r.serNode ++ writeVaruint len ∧
    ∃ t, MMRNode.appendAll [0x0e, 0x0f] = .ok t ∧
      t.serNode = [0x00, 0x02, 0x00, 0x01, 0x0e, 0x00, 0x01, 0x0f, 0x02] := by
  constructor
  · rfl
  · refine ⟨.inner (.leaf 0x0e) (.leaf 0x0f) 2, rfl, ?_⟩
    have e1 : writeVaruint 2 = [2] :=
      writeVaruint_small (by norm_num) (by norm_num)
    have e2 : writeVaruint 0x0e = [0x0e] :=
      writeVaruint_small (by norm_num) (by norm_num)
    have e3 : writeVaruint 0x0f = [0x0f] :=
      writeVaruint_small (by norm_num) (by norm_num)
    have e4 : writeVaruint 1 = [1] :=
      writeVaruint_small (by norm_num) (by norm_num)
    simp [MMRNode.serNode, writeBool, e1, e2, e3, e4]

/-- A Python `slice` object with optional integer endpoints and step. -/
structure PySlice where
  start : Option Int
  stop : Option Int
  step : Option Int
deriving DecidableEq

/-- CPython's clamping of the start index in `slice.indices(length)`. -/
def adjStart (o : Option Int) (step : Int) (length : Nat) : Int :=
  match o with
  | none => if step < 0 then (length : Int) - 1 else 0
  | some start =>
    if start < 0 then
      if start + length < 0 then (if step < 0 then -1 else 0)
      else start + length
    else if (length : Int) ≤ start then
      (if step < 0 then (length : Int) - 1 else (length : Int))
    else start

/-- CPython's clamping of the stop index in `slice.indices(length)`. -/
def adjStop (o : Option Int) (step : Int) (length : Nat) : Int :=
  match o with
  | none => if step < 0 then -1 else (length : Int)
  | some stop =>
    if stop < 0 then
      if stop + length < 0 then (if step < 0 then -1 else 0)
      else stop + length
    else if (length : Int) ≤ stop then
      (if step < 0 then (length : Int) - 1 else (length : Int))
    else stop

/-- `slice.indices(length)`: the step defaults to 1 and must not be zero
(`ValueError`); start and stop are clamped into range. -/
def sliceIndices (sl : PySlice) (length : Nat) :
    Except PyErr (Int × Int × Int) :=
  let step := sl.step.getD 1
  if step = 0 then .error .valueError
  else .ok (adjStart sl.start step length, adjStop sl.stop step length, step)

/-- `__getitem__` with a `slice`, per variant: `Empty` resolves the indices
(raising `ValueError` on a zero step) and returns itself without ever
examining the step; `Leaf` and `Inner` raise `NotImplementedError` for any
step other than 1, return themselves when fully covered, and otherwise
assemble the result from the children, `extend`ing the left part with the
right part's values. -/
def MMRNode.getSlice : MMRNode → PySlice → Except PyErr MMRNode
  | .empty, sl => do
    let _ ← sliceIndices sl 0
    .ok .empty
  | .leaf v, sl => do
    let ssr ← sliceIndices sl 1
    if ssr.2.2 ≠ 1 then .error .notImplementedError
    else if ssr.1 ≤ 0 ∧ 1 ≤ ssr.2.1 then .ok (.leaf v)
    else .ok .empty
  | .inner l r len, sl => do
    let ssr ← sliceIndices sl len
    if ssr.2.2 ≠ 1 then .error .notImplementedError
    else if ssr.1 ≤ 0 ∧ (len : Int) ≤ ssr.2.1 then .ok (.inner l r len)
    else if ssr.1 < (l.lengthN : Int) then do
      let r1 ← l.getSlice ⟨some ssr.1, some ssr.2.1, some 1⟩
      if (l.lengthN : Int) < ssr.2.1 then do
        let sub ← r.getSlice ⟨some 0, some (ssr.2.1 - l.lengthN), some 1⟩
        sub.leaves.foldlM MMRNode.appendM r1
      else .ok r1
    else if (l.lengthN : Int) ≤ ssr.1 ∧ ssr.1 < (len : Int) then
      r.getSlice ⟨some (ssr.1 - l.lengthN), some (ssr.2.1 - l.lengthN), some 1⟩
    else .ok .empty

theorem C8_cx_empty_ignores_step :
    MMRNode.getSlice .empty ⟨none, none, some 2⟩ = .ok .empty := rfl

/-- C8 (amended): a slice whose step is neither 0 nor 1 raises
`NotImplementedError` on `Leaf` and `Inner` nodes, but the `Empty` node's
slice branch never examines the step and returns the empty range itself
(a zero step raises `ValueError` inside `slice.indices` on every variant). -/
theorem C8_slice_step_ne_one (sl : PySlice) (st : Int) (hsl : sl.step = some st)
    (h0 : st ≠ 0) (h1 : st ≠ 1) :
    MMRNode.getSlice .empty sl = .ok .empty ∧
    (∀ v, MMRNode.getSlice (.leaf v) sl = .error .notImplementedError) ∧
    (∀ l r len, MMRNode.getSlice (.inner l r len) sl
      = .error .notImplementedError) := by
  have hind : ∀ length : Nat, sliceIndices sl length
      = .ok (adjStart sl.start st length, adjStop sl.stop st length, st) := by
    intro length
    simp only [sliceIndices, hsl, Option.getD_some]
    rw [if_neg h0]
  refine ⟨?_, ?_, ?_⟩
  · simp only [MMRNode.getSlice, hind, exc_bind_ok]
  · intro v
    simp only [MMRNode.getSlice, hind, exc_bind_ok]
    rw [if_pos h1]
  · intro l r len
    simp only [MMRNode.getSlice, hind, exc_bind_ok]
    rw [if_pos h1]

theorem C8_slice_step_ne_one_witness :
    MMRNode.getSlice .empty ⟨none, none, some 2⟩ = .ok .empty ∧
    (∀ v, MMRNode.getSlice (.leaf v) ⟨none, none, some 2⟩
      = .error .notImplementedError) ∧
    (∀ l r len, MMRNode.getSlice (.inner l r len) ⟨none, none, some 2⟩
      = .error .notImplementedError) :=
  C8_slice_step_ne_one ⟨none, none, some 2⟩ 2 rfl (by norm_num) (by norm_num)
